import Mathlib

/-!
Verification of the vcHMM variant-calling pipeline (vcHMM.py, get_sam_reads.py,
variant_calling_output.py) against its natural-language specification.

The Python source is shallowly embedded.  Conventions used throughout:

* DNA characters are the inductive type `Base` (`A C G T N gap`, with `gap`
  standing for the `'-'` character).
* Per-base quality values are `Option ℚ`: the Python code stores the string
  `"-"` (here `none`) as the quality of a gap position, and numbers otherwise.
* Python lists are Lean `List`s.  A Python `dict` (used for the insertion
  events) is an association list in insertion order, since Python dicts are
  ordered; overwriting an existing key keeps its position.
* Python indexing `l[k]` with a possibly negative `k` is `pyGet?`/`pyGetB`
  (negative indices wrap from the end, as in Python; an out-of-range access
  raises `IndexError` in Python and yields `none` from `pyGet?`).
* Exact rational arithmetic (`ℚ`) replaces floating point in the purely
  rational parts (transition matrix, quality repair, coordinates); the
  transcendental parts (emission probabilities, Viterbi) are embedded over `ℝ`
  with `EReal` standing for IEEE floats extended with `-inf` (the code turns
  the `"NaN"` markers of the emission matrix into `np.NINF` before using them).
-/

inductive Base where
  | A | C | G | T | N | gap
deriving DecidableEq, Repr

/-- Python character of a `Base`. -/
def baseChar : Base → Char
  | Base.A => 'A'
  | Base.C => 'C'
  | Base.G => 'G'
  | Base.T => 'T'
  | Base.N => 'N'
  | Base.gap => '-'

/-- One-character string of a `Base` (Python `str(c)` on a character). -/
def baseStr (b : Base) : String := String.mk [baseChar b]

/-- Quality value: `none` is the Python string `"-"` stored at gap positions. -/
abbrev QVal := Option ℚ

/-- A read as carried through the pipeline: the 6-tuple
`[reference_start, query_name, query_sequence, cigartuples, mapping_quality,
query_qualities]` of `get_sam`.  `cig = none` models a `None` cigar
(unmapped read). -/
structure PRead where
  start : Int
  name : String
  seq : List Base
  cig : Option (List (Nat × Nat))
  mapq : ℚ
  qual : List QVal
deriving DecidableEq, Repr

/-- Python indexing `l[k]` for `k : Int`: negative indices count from the end;
out of range is `none` (Python raises `IndexError`). -/
def pyGet? {α : Type} (l : List α) (k : Int) : Option α :=
  let j : Int := if k < 0 then (l.length : Int) + k else k
  if j < 0 then none else l.get? j.toNat

/-- Python indexing into a base string, with a default for the out-of-range
case (which raises `IndexError` in Python; the claims below never reach it). -/
def pyGetB (l : List Base) (k : Int) : Base :=
  (pyGet? l k).getD Base.N

/-- Python slice `l[:-n]`: for `n = 0` this is `l[:0] = []`, not `l`. -/
def pySliceToNeg {α : Type} (l : List α) (n : Nat) : List α :=
  if n = 0 then [] else l.take (l.length - n)

/-! ## Alignment Normalizer: `get_cigar` (vcHMM.py lines 36-122)

The per-read loop state mirrors the Python local variables.  The iteration is
over the read's *original* cigar list (Python's `for operation in read[3]`
binds the list object before `read` is rebound), while the slices
`read[3][1:]`, `read[3][:-1]` update the stored cigar of the read record. -/

structure CigState where
  read : PRead
  soft_at_beginning : Bool
  hard_at_beginning : Bool
  same_read : Bool
  nr_insertions : Nat
  pos : Nat
deriving Repr

/-- One cigar operation of `get_cigar`'s inner loop.  `readnames` is the list
of names of previously processed reads.  Returns the new state and the
insertion events appended by this operation (triples
`(reference coordinate, length, read name)`). -/
def cigOp (readnames : List String) (st : CigState) (op : Nat × Nat) :
    CigState × List (Int × Nat × String) :=
  let r := st.read
  let st1 :=
    if op.1 = 4 then
      -- soft clip: trims the base sequence and the cigar, NOT the qualities
      if st.soft_at_beginning then
        { st with soft_at_beginning := false,
                  read := { r with start := r.start + (op.2 : Int),
                                   seq := r.seq.drop op.2,
                                   cig := (r.cig.getD []).drop 1 } }
      else
        { st with read := { r with seq := pySliceToNeg r.seq op.2,
                                   cig := (r.cig.getD []).dropLast } }
    else if op.1 = 5 then
      -- hard clip: drops the cigar entry only
      if st.hard_at_beginning then
        { st with hard_at_beginning := false,
                  read := { r with cig := (r.cig.getD []).drop 1 } }
      else
        { st with read := { r with cig := (r.cig.getD []).dropLast } }
    else if op.1 = 2 then
      -- deletion: splice gap characters into sequence and qualities
      let g := (r.seq.take st.pos).count Base.gap
      { st with read :=
          { r with
            seq := r.seq.take (st.pos + g) ++ List.replicate op.2 Base.gap ++
                   r.seq.drop (st.pos + g),
            qual := r.qual.take (st.pos + g) ++
                    List.replicate op.2 (none : Option ℚ) ++
                    r.qual.drop (st.pos + g) } }
    else st
  if op.1 = 1 then
    -- insertion: maybe rename the read on a name collision, then record the
    -- event; only the FIRST insertion's length is remembered in
    -- `nr_insertions` and subtracted for later insertions of the same read
    let stR :=
      if st1.read.name ∈ readnames then
        { st1 with read := { st1.read with name := st1.read.name ++ "b" } }
      else st1
    let r' := stR.read
    if stR.same_read then
      ({ stR with same_read := false, nr_insertions := op.2,
                  pos := stR.pos + op.2 },
       [(r'.start + (stR.pos : Int), op.2, r'.name)])
    else
      ({ stR with pos := stR.pos + op.2 },
       [(r'.start + (stR.pos : Int) - (stR.nr_insertions : Int), op.2, r'.name)])
  else
    ({ st1 with pos := st1.pos + op.2 }, [])

/-- Folds `cigOp` over a read's cigar operations. -/
def cigRead (readnames : List String) (r : PRead) (ops : List (Nat × Nat)) :
    CigState × List (Int × Nat × String) :=
  ops.foldl
    (fun acc op =>
      let s := cigOp readnames acc.1 op
      (s.1, acc.2 ++ s.2))
    ({ read := r, soft_at_beginning := true, hard_at_beginning := true,
       same_read := true, nr_insertions := 0, pos := 0 }, [])

/-- `get_cigar` (vcHMM.py lines 36-122, identical in get_sam_reads.py):
strips clips, expands deletions into gaps, records insertion events.  Reads
with a `None` cigar are dropped.  Returns `(newsam, insertions)`. -/
def get_cigar (sam : List PRead) : List PRead × List (Int × Nat × String) :=
  let step := fun (acc : List PRead × List (Int × Nat × String) × List String)
                  (r : PRead) =>
    match r.cig with
    | none => acc
    | some ops =>
        let (st, ins) := cigRead acc.2.2 r ops
        (acc.1 ++ [st.read], acc.2.1 ++ ins, acc.2.2 ++ [st.read.name])
  let out := sam.foldl step ([], [], [])
  (out.1, out.2.1)

/-! ## Insertion dictionary and Coordinate Realigner
(vcHMM.py lines 146-186) -/

/-- An insertion-event dictionary entry: key `(coordinate, length)`, value the
contributing read names. -/
abbrev InsDict := List ((Int × Nat) × List String)

/-- Python `d[k] = v` on an ordered dict: replace in place if the key exists,
else append. -/
def dictInsert (k : Int × Nat) (v : List String) : InsDict → InsDict
  | [] => [(k, v)]
  | (k', v') :: t => if k' = k then (k, v) :: t else (k', v') :: dictInsert k v t

/-- `update_insertions` (vcHMM.py lines 146-165): shift every event's
coordinate by the accumulated length of the events already processed. -/
def update_insertions (ins : InsDict) : InsDict :=
  (ins.foldl
    (fun (acc : InsDict × Nat) e =>
      (dictInsert (e.1.1 + (acc.2 : Int), e.1.2) e.2 acc.1, acc.2 + e.1.2))
    ([], 0)).1

/-- `update_startpos` (vcHMM.py lines 168-186): add to a read's start offset
the length of every event whose coordinate is strictly below the read's
current (running) start. -/
def update_startpos (sam : List PRead) (ins : InsDict) : List PRead :=
  sam.map (fun r =>
    ins.foldl
      (fun r' e =>
        if e.1.1 < r'.start then { r' with start := r'.start + (e.1.2 : Int) }
        else r')
      r)

/-! ## Pileup Builder: `get_pileup` (vcHMM.py lines 231-252) -/

/-- Bases, qualities and mapping qualities of all reads overlapping
position `p`. -/
def get_pileup (samfile : List PRead) (p : Nat) :
    List Base × List QVal × List ℚ :=
  samfile.foldl
    (fun acc r =>
      if r.start ≤ (p : Int) ∧ (p : Int) < r.start + (r.seq.length : Int) then
        (acc.1 ++ [r.seq.getD ((p : Int) - r.start).toNat Base.N],
         acc.2.1 ++ [r.qual.getD ((p : Int) - r.start).toNat (none : Option ℚ)],
         acc.2.2 ++ [r.mapq])
      else acc)
    ([], [], [])

/-! ## Quality repair (vcHMM.py lines 439-460, inside `build_emissionmatrix`)

Python's first branch condition is
`all(elem == pileup_qual[0] for elem in pileup_qual) and [pileup_qual[p] == "-" ...]`:
the list comprehension is truthy for any non-empty pileup, so the branch fires
exactly when all quality entries are equal to the first one (gap placeholders
or not).  On the empty list `all` is true but the comprehension is `[]`
(falsy), so nothing fires. -/

/-- Quality repair step of `build_emissionmatrix`. -/
def repair_qual (q : List QVal) (mapq : List ℚ) : List QVal :=
  match q with
  | [] => []
  | q0 :: _ =>
    if q.all (fun e => e = q0) then
      (List.range q.length).map (fun y => (some (mapq.getD y 0 / 4) : Option ℚ))
    else if (none : Option ℚ) ∈ q then
      let cnt : ℚ := ((q.filter (fun e => e ≠ (none : Option ℚ))).length : ℚ)
      let mean : ℚ := (q.filterMap id).sum / cnt
      q.map (fun v => match v with
        | none => (some mean : Option ℚ)
        | some a => (some a : Option ℚ))
    else q

/-! ## Transition Matrix Builder (vcHMM.py lines 255-396), exact `ℚ` -/

/-- `create_row_transition_matrix` (vcHMM.py lines 255-322).  The returned
list places each assigned entry at its index; every index 0-29 is assigned
exactly once by the Python code. -/
def create_row_transition_matrix (v : List ℚ) (hetrate : ℚ) : List ℚ :=
  let p0 := v.getD 0 0
  let p1 := v.getD 1 0
  let p2 := v.getD 2 0
  let p3 := v.getD 3 0
  let t := p3 * hetrate / 32
  [p0 * (1 - hetrate) * (1 - t),                       -- 0
   p1 * (1 - hetrate) / 3 * (1 - t),                   -- 1
   p1 * (1 - hetrate) / 3 * (1 - t),                   -- 2
   p1 * (1 - hetrate) / 3 * (1 - t),                   -- 3
   (p0 + p1 / 3) * hetrate / 4 * (1 - t),              -- 4
   (p0 + p1 / 3) * hetrate / 4 * (1 - t),              -- 5
   (p0 + p1 / 3) * hetrate / 4 * (1 - t),              -- 6
   (p0 + p2) * hetrate / 4 * (1 - t),                  -- 7
   p1 * hetrate / 6 * (1 - t),                         -- 8
   p1 * hetrate / 6 * (1 - t),                         -- 9
   (p1 / 3 + p2) * hetrate / 4 * (1 - t),              -- 10
   p1 * hetrate / 6 * (1 - t),                         -- 11
   (p1 / 3 + p2) * hetrate / 4 * (1 - t),              -- 12
   (p1 / 3 + p2) * hetrate / 4 * (1 - t),              -- 13
   p2 * (1 - hetrate) * (1 - t),                       -- 14
   p3 * (1 - hetrate) / 4 * (1 - t),                   -- 15
   p3 * (1 - hetrate) / 4 * (1 - t),                   -- 16
   p3 * (1 - hetrate) / 4 * (1 - t),                   -- 17
   p3 * (1 - hetrate) / 4 * (1 - t),                   -- 18
   p3 * hetrate / 8 * (1 - t),                         -- 19
   p3 * hetrate / 8 * (1 - t),                         -- 20
   p3 * hetrate / 8 * (1 - t),                         -- 21
   p3 * hetrate / 16 * (1 - t),                        -- 22
   p3 * hetrate / 8 * (1 - t),                         -- 23
   p3 * hetrate / 8 * (1 - t),                         -- 24
   p3 * hetrate / 16 * (1 - t),                        -- 25
   p3 * hetrate / 8 * (1 - t),                         -- 26
   p3 * hetrate / 16 * (1 - t),                        -- 27
   p3 * hetrate / 16 * (1 - t),                        -- 28
   t]                                                  -- 29

/-- `create_transition_matrix` (vcHMM.py lines 325-396). -/
def create_transition_matrix (pre : List (List ℚ)) (hetrate : ℚ) :
    List (List ℚ) :=
  let rowM := create_row_transition_matrix (pre.getD 0 []) hetrate
  let rowS := create_row_transition_matrix (pre.getD 1 []) hetrate
  let rowD := create_row_transition_matrix (pre.getD 2 []) hetrate
  let rowI := create_row_transition_matrix (pre.getD 3 []) hetrate
  let rowSD := (List.range 30).map
    (fun j => (rowS.getD j 0 + rowD.getD j 0) / 2)
  [rowM,                                               -- 0
   rowS, rowS, rowS, rowS, rowS, rowS,                 -- 1-6
   rowSD,                                              -- 7
   rowS, rowS,                                         -- 8,9
   rowSD,                                              -- 10
   rowS,                                               -- 11
   rowSD, rowSD,                                       -- 12,13
   rowD,                                               -- 14
   rowI, rowI, rowI, rowI, rowI, rowI, rowI,           -- 15-21
   rowI, rowI, rowI, rowI, rowI, rowI, rowI,           -- 22-28
   List.replicate 30 (1/30 : ℚ)]                       -- 29

/-! ## Genotype tables (vcHMM.py lines 410-417 and 799-819)

`find_base_state` aliases `vector_A_ex = vector_A` before extending, so
`vector_A` itself doubles to 30 entries and the C/G/T tables are extended by
the already-doubled A table (45 entries); indices 0-29 behave as intended. -/

def vector_A : List (Base × Base) :=
  [(Base.A, Base.A), (Base.C, Base.C), (Base.G, Base.G), (Base.T, Base.T),
   (Base.A, Base.C), (Base.A, Base.G), (Base.A, Base.T), (Base.A, Base.gap),
   (Base.C, Base.G), (Base.C, Base.T), (Base.C, Base.gap), (Base.G, Base.T),
   (Base.G, Base.gap), (Base.T, Base.gap), (Base.gap, Base.gap)]

def vector_C : List (Base × Base) :=
  [(Base.C, Base.C), (Base.A, Base.A), (Base.G, Base.G), (Base.T, Base.T),
   (Base.A, Base.C), (Base.C, Base.G), (Base.C, Base.T), (Base.C, Base.gap),
   (Base.A, Base.G), (Base.A, Base.T), (Base.A, Base.gap), (Base.G, Base.T),
   (Base.G, Base.gap), (Base.T, Base.gap), (Base.gap, Base.gap)]

def vector_G : List (Base × Base) :=
  [(Base.G, Base.G), (Base.A, Base.A), (Base.C, Base.C), (Base.T, Base.T),
   (Base.A, Base.G), (Base.C, Base.G), (Base.G, Base.T), (Base.G, Base.gap),
   (Base.A, Base.C), (Base.A, Base.T), (Base.A, Base.gap), (Base.C, Base.T),
   (Base.C, Base.gap), (Base.T, Base.gap), (Base.gap, Base.gap)]

def vector_T : List (Base × Base) :=
  [(Base.T, Base.T), (Base.A, Base.A), (Base.C, Base.C), (Base.G, Base.G),
   (Base.A, Base.T), (Base.C, Base.T), (Base.G, Base.T), (Base.T, Base.gap),
   (Base.A, Base.C), (Base.A, Base.G), (Base.A, Base.gap), (Base.C, Base.G),
   (Base.C, Base.gap), (Base.G, Base.gap), (Base.gap, Base.gap)]

def vector_A_ex : List (Base × Base) := vector_A ++ vector_A

def vector_C_ex : List (Base × Base) := vector_C ++ vector_A_ex

def vector_G_ex : List (Base × Base) := vector_G ++ vector_A_ex

def vector_T_ex : List (Base × Base) := vector_T ++ vector_A_ex

/-! ## Genotype Resolver: `find_base_state` (vcHMM.py lines 786-858) -/

/-- Element of the base-state list: `-1` sentinels stay sentinels, genotype
pairs come from the tables, and the `N` / unknown-base error paths append the
reference character itself. -/
inductive BState where
  | sentinel
  | pair (g : Base × Base)
  | base (b : Base)
deriving DecidableEq, Repr

/-- Python `base_states[k][0]`.  On `.pair` this is the first allele; on
`.base b` (the `"N"` error value, a 1-character string) Python yields the
character itself; `(-1)[0]` would raise `TypeError` (modelled as `N`). -/
def BState.c0 : BState → Base
  | BState.pair g => g.1
  | BState.base b => b
  | BState.sentinel => Base.N

/-- Python `base_states[k][1]` (raises on `.sentinel` and on the 1-character
`.base` string; both modelled as `N`, neither is reached by the claims). -/
def BState.c1 : BState → Base
  | BState.pair g => g.2
  | BState.base _ => Base.N
  | BState.sentinel => Base.N

/-- `find_base_state` (vcHMM.py lines 786-858).  An index outside the
genotype table raises `IndexError` in Python; modelled by the `(N,N)`
default. -/
def find_base_state (xtilde : List Int) (upd_ref : List Base) : List BState :=
  (List.range upd_ref.length).map (fun i =>
    let x := xtilde.getD i (-1)
    if x = -1 then BState.sentinel
    else
      match upd_ref.getD i Base.N with
      | Base.A => BState.pair (vector_A_ex.getD x.toNat (Base.N, Base.N))
      | Base.C => BState.pair (vector_C_ex.getD x.toNat (Base.N, Base.N))
      | Base.G => BState.pair (vector_G_ex.getD x.toNat (Base.N, Base.N))
      | Base.T => BState.pair (vector_T_ex.getD x.toNat (Base.N, Base.N))
      | Base.N => BState.base Base.N
      | Base.gap => BState.pair (vector_A_ex.getD x.toNat (Base.N, Base.N)))

/-! ## Variant Formatter: `create_variant_calling_output` (vcHMM.py lines
861-982) and `create_varing_calling_output` (variant_calling_output.py).

Both walk the ungapped reference with a running `gap_counter` and a persistent
`variants` string (stale on the unreachable error-print paths, hence threaded
through as `vtemp`).  Python raises `IndexError` when an index runs past a
list; those accesses are modelled with defaults (`-1` state, `N` base,
`sentinel`), none of which is reached by the runs in the claims below.  The
`while` loop counting a gap run is `gapRunLen` (Python would raise if the
gapped reference ended inside a run; the model stops at the end). -/

/-- Length of the `'-'` run of `l` starting at index `k`. -/
def gapRunLen (l : List Base) (k : Nat) : Nat :=
  ((l.drop k).takeWhile (fun b => b = Base.gap)).length

/-- Loop body of `create_variant_calling_output`; `fuel` counts remaining
iterations (the Python loop runs exactly `len(ref)` times), `i` the ungapped
position, `gc` the `gap_counter`, `vtemp` the persistent `variants` string. -/
def vcoGo (ref updRef : List Base) (bs : List BState) (xt : List Int) :
    Nat → Nat → Nat → String → List String
  | 0, _, _, _ => []
  | fuel+1, i, gc, vtemp =>
    let x := xt.getD (i + gc) (-1)
    if x = 0 ∨ x = 29 ∨ x = -1 then
      let gc' := if updRef.getD (i + gc) Base.N = Base.gap then gc + 1 else gc
      vcoGo ref updRef bs xt fuel (i+1) gc' vtemp
    else if updRef.getD (i + gc) Base.N = Base.gap then
      -- insertion run in the gapped reference
      let n := 1 + gapRunLen updRef (i + gc + 1)       -- this_gap_number
      let gc' := gc + n                                 -- gap_counter after the while loop
      let bFirst := bs.getD (i + gc' - n) BState.sentinel
      let bAfter := bs.getD (i + gc') BState.sentinel
      let refm1 := baseStr (pyGetB ref ((i : Int) - 1))
      let v0 : String :=
        if bAfter.c0 = bFirst.c1 then
          toString i ++ "\t" ++ refm1 ++ "\t" ++ refm1 ++ baseStr bFirst.c0
        else if bFirst.c0 ≠ bFirst.c1 ∧ bFirst.c0 ≠ Base.gap ∧ bFirst.c1 ≠ Base.gap then
          toString i ++ "\t" ++ refm1 ++ "\t" ++ refm1 ++ baseStr bFirst.c0 ++
            "," ++ refm1 ++ baseStr bFirst.c1
        else if bFirst.c0 ≠ bFirst.c1 ∧ (bFirst.c0 ≠ Base.gap ∨ bFirst.c1 ≠ Base.gap) then
          let tmp := if bFirst.c0 ≠ Base.gap then baseStr bFirst.c0 else baseStr bFirst.c1
          toString i ++ "\t" ++ refm1 ++ "\t" ++ refm1 ++ tmp
        else vtemp     -- error print; Python keeps the stale `variants`
      let out0 := v0 ++ String.join (((List.range n).drop 1).map
        (fun ii => baseStr (bs.getD (i + ii + gc' - n) BState.sentinel).c0))
      out0 :: vcoGo ref updRef bs xt fuel (i+1) gc' out0
    else
      let b := bs.getD (i + gc) BState.sentinel
      let rB := updRef.getD (i + gc) Base.N
      let refm1 := baseStr (pyGetB ref ((i : Int) - 1))
      let refi := baseStr (pyGetB ref (i : Int))
      if x = 14 then
        let out0 := toString i ++ "\t" ++ refm1 ++ refi ++ "\t" ++ refm1
        out0 :: vcoGo ref updRef bs xt fuel (i+1) gc out0
      else if b.c0 = Base.gap ∨ b.c1 = Base.gap then
        -- `"0"` fallback: Python leaves integer 0 in `temp` and would raise
        -- TypeError on concatenation; unreachable for one-gap pairs
        let tmp := if b.c0 ≠ Base.gap then baseStr b.c0
                   else if b.c1 ≠ Base.gap then baseStr b.c1 else "0"
        let out0 := toString i ++ "\t" ++ refm1 ++ refi ++ "\t" ++ refm1 ++
          tmp ++ "," ++ refm1
        out0 :: vcoGo ref updRef bs xt fuel (i+1) gc out0
      else if b.c0 = b.c1 then
        let out0 := toString i ++ "\t" ++ refi ++ "\t" ++ baseStr b.c0
        out0 :: vcoGo ref updRef bs xt fuel (i+1) gc out0
      else if b.c0 = rB ∨ b.c1 = rB then
        -- heterozygous SNP: vcHMM.py reports the allele DIFFERING from the
        -- gapped reference base
        let tmp := if b.c0 ≠ rB then baseStr b.c0
                   else if b.c1 ≠ rB then baseStr b.c1 else "0"
        let out0 := toString i ++ "\t" ++ refi ++ "\t" ++ tmp
        out0 :: vcoGo ref updRef bs xt fuel (i+1) gc out0
      else if b.c0 ≠ rB ∧ b.c1 ≠ rB then
        let out0 := toString i ++ "\t" ++ refi ++ "\t" ++ baseStr b.c0 ++ "," ++
          baseStr b.c1
        out0 :: vcoGo ref updRef bs xt fuel (i+1) gc out0
      else vcoGo ref updRef bs xt fuel (i+1) gc vtemp

/-- `create_variant_calling_output` (vcHMM.py lines 861-982). -/
def create_variant_calling_output (ref updRef : List Base) (bs : List BState)
    (xt : List Int) : List String :=
  vcoGo ref updRef bs xt ref.length 0 0 ""

/-- Loop body of `create_varing_calling_output` (variant_calling_output.py).
Differences from vcHMM.py: separators are `" \t "`, the insertion branch
indexes `base_states[i + ii]` (without the gap counter) and concatenates
`str(xtilde[i + ii][0])` for `ii ≥ 1` — `xtilde` holds integers, so a gap run
of length `≥ 2` raises `TypeError` (`none` here) — and the heterozygous-SNP
branch reports the allele EQUAL to the gapped reference base. -/
def vco2Go (ref updRef : List Base) (bs : List BState) (xt : List Int) :
    Nat → Nat → Nat → String → Option (List String)
  | 0, _, _, _ => some []
  | fuel+1, i, gc, vtemp =>
    let x := xt.getD (i + gc) (-1)
    if x = 0 ∨ x = 29 ∨ x = -1 then
      let gc' := if updRef.getD (i + gc) Base.N = Base.gap then gc + 1 else gc
      vco2Go ref updRef bs xt fuel (i+1) gc' vtemp
    else if updRef.getD (i + gc) Base.N = Base.gap then
      let n := 1 + gapRunLen updRef (i + gc + 1)
      let gc' := gc + n
      if 2 ≤ n then none    -- TypeError at `xtilde[i + ii][0]`, `ii = 1`
      else
        let bI := bs.getD i BState.sentinel             -- base_states[i + 0]
        let refm1 := baseStr (pyGetB ref ((i : Int) - 1))
        let out0 : String :=
          if bI.c0 = bI.c1 then
            toString i ++ " \t " ++ refm1 ++ " \t " ++ refm1 ++ baseStr bI.c0
          else if bI.c0 ≠ bI.c1 ∧ bI.c0 ≠ Base.gap ∧ bI.c1 ≠ Base.gap then
            toString i ++ " \t " ++ refm1 ++ " \t " ++ refm1 ++ baseStr bI.c0 ++
              "," ++ refm1 ++ baseStr bI.c1
          else if bI.c0 ≠ bI.c1 ∧ (bI.c0 ≠ Base.gap ∨ bI.c1 ≠ Base.gap) then
            let tmp := if bI.c0 ≠ Base.gap then baseStr bI.c0 else baseStr bI.c1
            toString i ++ " \t " ++ refm1 ++ " \t " ++ refm1 ++ tmp
          else vtemp
        (vco2Go ref updRef bs xt fuel (i+1) gc' out0).map (fun t => out0 :: t)
    else
      let b := bs.getD (i + gc) BState.sentinel
      let rB := updRef.getD (i + gc) Base.N
      let refm1 := baseStr (pyGetB ref ((i : Int) - 1))
      let refi := baseStr (pyGetB ref (i : Int))
      if x = 14 then
        let out0 := toString i ++ " \t " ++ refm1 ++ refi ++ " \t " ++ refm1
        (vco2Go ref updRef bs xt fuel (i+1) gc out0).map (fun t => out0 :: t)
      else if b.c0 = Base.gap ∨ b.c1 = Base.gap then
        let tmp := if b.c0 ≠ Base.gap then baseStr b.c0
                   else if b.c1 ≠ Base.gap then baseStr b.c1 else "0"
        let out0 := toString i ++ " \t " ++ refm1 ++ refi ++ " \t " ++ refm1 ++
          tmp ++ "," ++ refm1
        (vco2Go ref updRef bs xt fuel (i+1) gc out0).map (fun t => out0 :: t)
      else if b.c0 = b.c1 then
        let out0 := toString i ++ " \t " ++ refi ++ " \t " ++ baseStr b.c0
        (vco2Go ref updRef bs xt fuel (i+1) gc out0).map (fun t => out0 :: t)
      else if b.c0 = rB ∨ b.c1 = rB then
        let tmp := if b.c0 = rB then baseStr b.c0
                   else if b.c1 = rB then baseStr b.c1 else "0"
        let out0 := toString i ++ " \t " ++ refi ++ " \t " ++ tmp
        (vco2Go ref updRef bs xt fuel (i+1) gc out0).map (fun t => out0 :: t)
      else if b.c0 ≠ rB ∧ b.c1 ≠ rB then
        let out0 := toString i ++ " \t " ++ refi ++ " \t " ++ baseStr b.c0 ++
          "," ++ baseStr b.c1
        (vco2Go ref updRef bs xt fuel (i+1) gc out0).map (fun t => out0 :: t)
      else vco2Go ref updRef bs xt fuel (i+1) gc vtemp

/-- `create_varing_calling_output` (variant_calling_output.py lines 2-118). -/
def create_varing_calling_output (ref updRef : List Base) (bs : List BState)
    (xt : List Int) : Option (List String) :=
  vco2Go ref updRef bs xt ref.length 0 0 ""

/-! ## Log-domain arithmetic for the float parts

The emission/Viterbi code works with IEEE floats where `-inf` arises from
`np.log(0)`, `np.log10(0)` and the converted `"NaN"` emission markers.  This
is modelled with `EReal` for log-domain values and `ℝ` for probabilities:
`eexp` is `np.exp` (`-inf ↦ 0`), `elog`/`elog10` are `np.log`/`np.log10`
(`0 ↦ -inf`; negative arguments give `nan` in numpy and never occur in the
pipeline — modelled as `⊥`).  `+inf` never arises; `eexp ⊤` is arbitrary.
Real division by a zero normalizer yields `nan`/`inf` in Python and `0` here
(Lean's convention); the claims below never divide by zero. -/

noncomputable section

/-- `np.exp` on the extended reals. -/
def eexp (x : EReal) : ℝ :=
  if x = ⊥ then 0 else if x = ⊤ then 0 else Real.exp x.toReal

/-- `np.log` on a float (`log 0 = -inf`). -/
def elog (x : ℝ) : EReal :=
  if x ≤ 0 then ⊥ else ((Real.log x : ℝ) : EReal)

/-- `np.log10` on a float (`log10 0 = -inf`). -/
def elog10 (x : ℝ) : EReal :=
  if x ≤ 0 then ⊥ else ((Real.logb 10 x : ℝ) : EReal)

end

/-- A column of the emission matrix (`α = EReal`) or of the Viterbi `delta`
list (`α = ℝ`): either the `-1` no-data sentinel or a vector. -/
inductive MCol (α : Type) where
  | sent
  | vec (v : List α)
deriving DecidableEq

noncomputable section

/-- `np.max` of a float list (numpy raises on `[]`; modelled as 0, never
reached with the 30-vectors of the pipeline). -/
def maxD : List ℝ → ℝ
  | [] => 0
  | h :: t => t.foldl max h

/-- `l.index(np.max(l))`: index of the first occurrence of the maximum. -/
def idxMax (l : List ℝ) : Nat := l.indexOf (maxD l)

/-! ## Viterbi forward pass (vcHMM.py lines 639-742) -/

/-- Initialization case of the forward pass (vcHMM.py lines 658-669): the
first row of the transition matrix combined with the column's exponentiated
emissions, L1-normalized. -/
def initCol (T : List (List ℝ)) (e : List EReal) : List ℝ :=
  let initialprob := T.getD 0 []
  let tl := (List.range e.length).map
    (fun ii => initialprob.getD ii 0 * eexp (e.getD ii ⊥))
  let s := tl.sum
  tl.map (fun v => v / s)

/-- Consecutive case of the forward pass (vcHMM.py lines 673-742): 30 copies
of the previous column are multiplied entrywise with the transition matrix,
row maxima are taken, logged, added to the emission column, normalized by
log-sum-exp and exponentiated.  (The Python `"NaN"` string comparisons on
float lists are always false and elided.) -/
def nextCol (T : List (List ℝ)) (prev : List ℝ) (e : List EReal) : List ℝ :=
  let delta_matrix : List (List ℝ) := List.replicate 30 prev
  let true_delta_matrix : List (List ℝ) :=
    (List.range 30).map (fun y =>
      (List.range 30).map (fun z =>
        (T.getD y []).getD z 0 * (delta_matrix.getD y []).getD z 0))
  let max_list : List ℝ :=
    (List.range 30).map (fun y => maxD (true_delta_matrix.getD y []))
  let emmi : List EReal :=
    (List.range 30).map (fun y => elog (max_list.getD y 0) + e.getD y ⊥)
  let den : EReal := elog ((emmi.map eexp).sum)
  emmi.map (fun v => eexp (v - den))

/-- One column of the forward pass; `prev` is the previous column's vector
when that column exists and is not a sentinel (Python's
`i == 0 or emission_matrix[i-1] == -1` test), `none` otherwise. -/
def fwdStep (T : List (List ℝ)) (prev : Option (List ℝ)) :
    MCol EReal → Option (List ℝ) × MCol ℝ
  | MCol.sent => (none, MCol.sent)
  | MCol.vec e =>
      let d := match prev with
        | none => initCol T e
        | some p => nextCol T p e
      (some d, MCol.vec d)

/-- Forward-pass loop carrying the previous column. -/
def fwdGo (T : List (List ℝ)) (prev : Option (List ℝ)) :
    List (MCol EReal) → List (MCol ℝ)
  | [] => []
  | c :: rest =>
      let s := fwdStep T prev c
      s.2 :: fwdGo T s.1 rest

/-- The Viterbi forward pass: the `delta` list (one entry per emission
column). -/
def forward (T : List (List ℝ)) (E : List (MCol EReal)) : List (MCol ℝ) :=
  fwdGo T none E

/-! ## Viterbi backtracking (vcHMM.py lines 751-781)

The Python loop walks the reversed `delta` list; for a non-sentinel entry at
`i > 0` it evaluates `delta[i + 1]`, which raises `IndexError` at the last
index (`none` below).  The `else` branch reads
`transmission_matrix[xtilde[i - 1]]`, where `xtilde[i - 1]` may be `-1`: a
Python negative index selecting the LAST row of the transition matrix
(`pyGet?`). -/

def btGo (T : List (List ℝ)) : Bool → Int → List (MCol ℝ) → Option (List Int)
  | _, _, [] => some []
  | first, prevx, c :: rest =>
    match c with
    | MCol.sent => (btGo T false (-1) rest).map (fun xs => (-1 : Int) :: xs)
    | MCol.vec d =>
      if first then
        let x : Int := (idxMax d : Int)
        (btGo T false x rest).map (fun xs => x :: xs)
      else
        match rest with
        | [] => none        -- delta[i + 1] raises IndexError
        | c' :: _ =>
          match c' with
          | MCol.sent =>
            let x : Int := (idxMax d : Int)
            (btGo T false x rest).map (fun xs => x :: xs)
          | MCol.vec _ =>
            match pyGet? T prevx with
            | none => none  -- transition-row lookup out of range
            | some trans_row =>
              let tl := (List.range trans_row.length).map
                (fun j => d.getD j 0 * trans_row.getD j 0)
              let x : Int := (idxMax tl : Int)
              (btGo T false x rest).map (fun xs => x :: xs)

/-- Backtracking pass: builds `xtilde` over the reversed `delta` and reverses
the result (vcHMM.py lines 751-781). -/
def backtrack (T : List (List ℝ)) (delta : List (MCol ℝ)) : Option (List Int) :=
  (btGo T true 0 delta.reverse).map List.reverse

/-- `viterbi` (vcHMM.py lines 607-783): forward pass then backtracking.
`none` models a Python exception. -/
def viterbi (E : List (MCol EReal)) (T : List (List ℝ)) : Option (List Int) :=
  backtrack T (forward T E)

/-! ## Emission Matrix Builder: `build_emissionmatrix`
(vcHMM.py lines 399-604) -/

/-- The three per-base cases of the emission accumulation
(vcHMM.py lines 503-524 and 572-594). -/
def emissionCase (pr : Base × Base) (b : Base) (q : ℚ) : EReal :=
  if pr.1 = b ∧ pr.2 = b then
    elog10 (1 - (10 : ℝ) ^ (-(q : ℝ) / 10))
  else if b ≠ pr.1 ∧ b ≠ pr.2 then
    (((-(q : ℝ) / 10) + Real.logb 10 (0.25 : ℝ) : ℝ) : EReal)
  else
    elog10 (0.5 * (1 - (10 : ℝ) ^ (-(q : ℝ) / 10)) +
            0.125 * (10 : ℝ) ^ (-(q : ℝ) / 10))

/-- Accumulated emission value of one genotype over the pileup. -/
def emissionCell (pr : Base × Base) (pileup : List Base) (qual : List ℚ) :
    EReal :=
  ((List.range pileup.length).map (fun subi =>
      emissionCase pr (pileup.getD subi Base.N) (qual.getD subi 0))).foldl
    (· + ·) (0 : EReal)

/-- Python `nan_controll == 0`: no pileup base matches either allele. -/
def nanControl (pr : Base × Base) (pileup : List Base) : Bool :=
  pileup.all (fun b => !((pr.1 == b) || (pr.2 == b)))

/-- One genotype's entry in a column: the `≥ 80% gaps` shortcut for the
homozygous-gap pair, the no-match `"NaN"` marker (`⊥`), or the accumulated
value.  `prF` is the pair used by the two filters (`vector[ii]`), `prC` the
pair used by the accumulation loop (`vector[ii - 15]`, which for the
15-element tables is the same pair via Python negative indexing). -/
def emissionEntry (prF prC : Base × Base) (pileup : List Base) (qual : List ℚ)
    (gapcount : Nat) : EReal :=
  if prF = (Base.gap, Base.gap) ∧
      (pileup.length : ℚ) * (8/10) ≤ (gapcount : ℚ) then (0 : EReal)
  else if nanControl prF pileup then ⊥
  else emissionCell prC pileup qual

/-- The repaired numeric qualities of a pileup triple: after `repair_qual`
no `"-"` remains, so the numbers are extracted. -/
def repairedQual (pu : List Base × List QVal × List ℚ) : List ℚ :=
  (repair_qual pu.2.1 pu.2.2).map (fun v => v.getD 0)

/-- Reference-gap column: states 0-14 are "NaN", 15-29 use the A table. -/
noncomputable def emissionColGap (pileup : List Base) (qual : List ℚ) :
    List EReal :=
  List.replicate 15 (⊥ : EReal) ++
    (List.range 15).map (fun k =>
      emissionEntry (vector_A.getD k (Base.N, Base.N))
        (vector_A.getD k (Base.N, Base.N)) pileup qual
        (pileup.count Base.gap))

/-- Non-gap column over the base's genotype table (states 15-29 "NaN"). -/
noncomputable def emissionColBase (vector : List (Base × Base))
    (pileup : List Base) (qual : List ℚ) : List EReal :=
  (List.range 15).map (fun (ii : Nat) =>
      emissionEntry (vector.getD ii (Base.N, Base.N))
        ((pyGet? vector ((ii : Int) - 15)).getD (Base.N, Base.N))
        pileup qual (pileup.count Base.gap)) ++
    List.replicate 15 (⊥ : EReal)

/-- One column of the emission matrix (loop body of `build_emissionmatrix`). -/
noncomputable def emissionColumn (upd_sam : List PRead)
    (upd_reference : List Base) (i : Nat) : MCol EReal :=
  if (get_pileup upd_sam i).1.length < 5 ∨
      upd_reference.getD i Base.N = Base.N then MCol.sent
  else if upd_reference.getD i Base.N = Base.gap then
    MCol.vec (emissionColGap (get_pileup upd_sam i).1
      (repairedQual (get_pileup upd_sam i)))
  else
    MCol.vec (emissionColBase
      (match upd_reference.getD i Base.N with
        | Base.A => vector_A
        | Base.C => vector_C
        | Base.G => vector_G
        | Base.T => vector_T
        | _ => vector_A      -- N and gap are filtered above; unreachable
      )
      (get_pileup upd_sam i).1 (repairedQual (get_pileup upd_sam i)))

/-- `build_emissionmatrix` (vcHMM.py lines 399-604).  The `"NaN"` cells are
already `⊥` (= `np.NINF`), matching the conversion the Python `viterbi` does
on entry. -/
def build_emissionmatrix (upd_sam : List PRead) (upd_reference : List Base) :
    List (MCol EReal) :=
  (List.range upd_reference.length).map (emissionColumn upd_sam upd_reference)

end

/-! # Claims -/

/-! ## C2: row-stochasticity of the transition matrix -/

theorem create_row_length (v : List ℚ) (h : ℚ) :
    (create_row_transition_matrix v h).length = 30 := rfl

theorem create_row_sum (a b c d h : ℚ) (hs : a + b + c + d = 1) :
    (create_row_transition_matrix [a, b, c, d] h).sum = 1 := by
  simp only [create_row_transition_matrix, List.getD_cons_zero,
    List.getD_cons_succ, List.sum_cons, List.sum_nil]
  linear_combination (1 - d * h / 32) * hs

theorem range_map_getD_sum :
    ∀ (n : Nat) (u v : List ℚ), u.length = n → v.length = n →
      ((List.range n).map (fun j => (u.getD j 0 + v.getD j 0) / 2)).sum
        = (u.sum + v.sum) / 2 := by
  intro n
  induction n with
  | zero =>
    intro u v hu hv
    match u, v with
    | [], [] => simp
  | succ m ih =>
    intro u v hu hv
    match u, v with
    | a :: u', b :: v' =>
      have hu' : u'.length = m := by simpa using hu
      have hv' : v'.length = m := by simpa using hv
      rw [List.range_succ_eq_map]
      simp only [List.map_cons, List.map_map, List.sum_cons, Function.comp_def,
        List.getD_cons_zero, List.getD_cons_succ]
      rw [ih u' v' hu' hv']
      ring

theorem create_rowSD_sum (v w : List ℚ) (h : ℚ)
    (hv : (create_row_transition_matrix v h).sum = 1)
    (hw : (create_row_transition_matrix w h).sum = 1) :
    ((List.range 30).map (fun j =>
      ((create_row_transition_matrix v h).getD j 0 +
       (create_row_transition_matrix w h).getD j 0) / 2)).sum = 1 := by
  rw [range_map_getD_sum 30 _ _ (create_row_length v h) (create_row_length w h),
    hv, hw]
  norm_num

/-- C2: for every 4x4 pre-transition matrix whose four rows each sum to 1 and
every heterozygosity rate `h ∈ [0,1)`, the 30x30 matrix returned by
`create_transition_matrix` has each of rows 0-28 summing to exactly 1 (in
rational arithmetic), and row 29 equal to `1/30` in every one of its 30
columns. -/
theorem C2_transition_matrix_row_stochastic
    (a b c d a2 b2 c2 d2 a3 b3 c3 d3 a4 b4 c4 d4 h : ℚ)
    (h1 : a + b + c + d = 1) (h2 : a2 + b2 + c2 + d2 = 1)
    (h3 : a3 + b3 + c3 + d3 = 1) (h4 : a4 + b4 + c4 + d4 = 1)
    (_hh0 : 0 ≤ h) (_hh1 : h < 1) :
    (∀ i < 29, ((create_transition_matrix
        [[a, b, c, d], [a2, b2, c2, d2], [a3, b3, c3, d3], [a4, b4, c4, d4]]
        h).getD i []).sum = 1)
    ∧ (create_transition_matrix
        [[a, b, c, d], [a2, b2, c2, d2], [a3, b3, c3, d3], [a4, b4, c4, d4]]
        h).getD 29 [] = List.replicate 30 (1/30 : ℚ) := by
  constructor
  · intro i hi
    interval_cases i <;>
      first
        | exact create_row_sum a b c d h h1
        | exact create_row_sum a2 b2 c2 d2 h h2
        | exact create_row_sum a3 b3 c3 d3 h h3
        | exact create_row_sum a4 b4 c4 d4 h h4
        | exact create_rowSD_sum [a2, b2, c2, d2] [a3, b3, c3, d3] h
            (create_row_sum a2 b2 c2 d2 h h2) (create_row_sum a3 b3 c3 d3 h h3)
  · rfl

/-- C2 witness: the simulated-data pre-transition matrix of `main` with
heterozygosity rate `0.01`. -/
theorem C2_witness :
    (∀ i < 29, ((create_transition_matrix
        [[0.988, 0.008, 0.002, 0.002], [0.53, 0.45, 0.01, 0.01],
         [0.70, 0.15, 0.15, 0], [0.70, 0.15, 0, 0.15]]
        (0.01 : ℚ)).getD i []).sum = 1)
    ∧ (create_transition_matrix
        [[0.988, 0.008, 0.002, 0.002], [0.53, 0.45, 0.01, 0.01],
         [0.70, 0.15, 0.15, 0], [0.70, 0.15, 0, 0.15]]
        (0.01 : ℚ)).getD 29 [] = List.replicate 30 (1/30 : ℚ) :=
  C2_transition_matrix_row_stochastic 0.988 0.008 0.002 0.002 0.53 0.45 0.01
    0.01 0.70 0.15 0.15 0 0.70 0.15 0 0.15 0.01 (by norm_num) (by norm_num)
    (by norm_num) (by norm_num) (by norm_num) (by norm_num)

/-! ## C3: quality repair inside the Emission Matrix Builder

The claim states the `mapping_quality/4` replacement fires exactly when every
quality in the column is the gap placeholder.  The Python branch condition is
in fact "all quality entries are equal to the first one" (see `repair_qual`),
so a column of five equal NUMERIC qualities is also replaced. -/

/-- C3 counterexample: a column of five reads, all with quality 20 and no gap
placeholder at all, has its qualities replaced by `mapping_quality/4`
(mapping qualities 40,44,48,52,56 give 10,11,12,13,14), even though no
quality in the column is the gap placeholder — refuting the claimed
"exactly when every quality is the gap placeholder". -/
theorem C3_counterexample :
    repair_qual (List.replicate 5 (some (20 : ℚ))) [40, 44, 48, 52, 56]
        = [some 10, some 11, some 12, some 13, some 14]
      ∧ ¬ (∀ e ∈ List.replicate 5 (some (20 : ℚ)), e = (none : Option ℚ)) := by
  constructor
  · simp [repair_qual, List.replicate, List.range_succ]
    norm_num
  · decide

/-- C3 amended: for a column with at least 5 contributing reads, the
`mapping_quality/4` replacement fires exactly when ALL quality entries are
equal to the first one (in particular when every quality is the gap
placeholder); when the entries are not all equal and some are the gap
placeholder, each placeholder becomes the arithmetic mean of the
non-placeholder qualities and the non-placeholder entries are unchanged; in
particular the column of Scenario D — six reads, one deletion gap, five times
quality 20 (mapping quality 60) — assigns the gap position quality 20, not a
mapping-quality-derived value. -/
theorem C3_amended (q0 : QVal) (q' : List QVal) (mapq : List ℚ)
    (_hq : 5 ≤ (q0 :: q').length) (_hlen : mapq.length = (q0 :: q').length) :
    ((∀ e ∈ q0 :: q', e = q0) →
      repair_qual (q0 :: q') mapq =
        (List.range (q0 :: q').length).map
          (fun y => some (mapq.getD y 0 / 4)))
    ∧ ((¬ ∀ e ∈ q0 :: q', e = q0) → (none : Option ℚ) ∈ q0 :: q' →
      repair_qual (q0 :: q') mapq =
        (q0 :: q').map (fun v => match v with
          | none => some
              (((q0 :: q').filterMap id).sum /
               (((q0 :: q').filter (fun e => e ≠ (none : Option ℚ))).length : ℚ))
          | some a => some a))
    ∧ repair_qual [some 20, some 20, some 20, some 20, some 20, none]
        [60, 60, 60, 60, 60, 60]
        = [some 20, some 20, some 20, some 20, some 20, some (20 : ℚ)] := by
  refine ⟨?_, ?_, by simp [repair_qual, List.filterMap_cons, List.filter_cons]; norm_num⟩
  · intro hall
    have hcond : (q0 :: q').all (fun e => decide (e = q0)) = true := by
      simp only [List.all_eq_true, decide_eq_true_eq]
      exact hall
    simp [repair_qual, hcond]
  · intro hnall hmem
    have hcond : ¬ ((q0 :: q').all (fun e => decide (e = q0)) = true) := by
      simp only [List.all_eq_true, decide_eq_true_eq]
      exact hnall
    simp only [repair_qual, if_neg hcond, if_pos hmem]

/-- C3 amended witness: Scenario D's column discharges the hypotheses; the
gap entry gets the mean 20 of the five numeric qualities. -/
theorem C3_witness :
    ((∀ e ∈ (some 20 : QVal) :: [some 20, some 20, some 20, some 20, none],
        e = (some 20 : QVal)) →
      repair_qual ((some 20 : QVal) :: [some 20, some 20, some 20, some 20, none])
          [60, 60, 60, 60, 60, 60] =
        (List.range ((some (20:ℚ) : QVal) ::
            [some 20, some 20, some 20, some 20, none]).length).map
          (fun y => some (([60, 60, 60, 60, 60, 60] : List ℚ).getD y 0 / 4)))
    ∧ ((¬ ∀ e ∈ (some 20 : QVal) :: [some 20, some 20, some 20, some 20, none],
          e = (some 20 : QVal)) →
        (none : Option ℚ) ∈ (some 20 : QVal) ::
          [some 20, some 20, some 20, some 20, none] →
      repair_qual ((some 20 : QVal) :: [some 20, some 20, some 20, some 20, none])
          [60, 60, 60, 60, 60, 60] =
        ((some 20 : QVal) :: [some 20, some 20, some 20, some 20, none]).map
          (fun v => match v with
            | none => some
                ((((some 20 : QVal) ::
                    [some 20, some 20, some 20, some 20, none]).filterMap id).sum /
                 ((((some 20 : QVal) ::
                    [some 20, some 20, some 20, some 20, none]).filter
                      (fun e => e ≠ (none : Option ℚ))).length : ℚ))
            | some a => some a))
    ∧ repair_qual [some 20, some 20, some 20, some 20, some 20, none]
        [60, 60, 60, 60, 60, 60]
        = [some 20, some 20, some 20, some 20, some 20, some (20 : ℚ)] :=
  C3_amended (some 20) [some 20, some 20, some 20, some 20, none]
    [60, 60, 60, 60, 60, 60] (by decide) (by decide)

/-! ## C4: Alignment Normalizer on Scenario B

The claim expects the insertion event at coordinate `108 = 103 + 5` and the
qualities trimmed together with the bases.  In the code, `pos` also
accumulates the length of the leading soft clip (`pos += operation[1]` runs
for every operation), so the event lands at `103 + (3+5) = 111`; and the
soft-clip branch rebuilds the read with `read[5]` (the qualities) unchanged. -/

/-- Scenario B read: start offset 100, fresh identity, operations
soft-clip 3, match 5, insertion 2, match 10. -/
def c4_read : PRead :=
  { start := 100, name := "r", seq := List.replicate 20 Base.A,
    cig := some [(4, 3), (0, 5), (1, 2), (0, 10)], mapq := 50,
    qual := List.replicate 20 (some 30) }

/-- C4 counterexample: the single recorded InsertionEvent sits at coordinate
111, not 108, and the read's quality list is NOT trimmed (still 20 entries
against the 17 remaining bases). -/
theorem C4_counterexample :
    (get_cigar [c4_read]).2 = [((111 : Int), 2, "r")]
    ∧ (111 : Int) ≠ 108
    ∧ (get_cigar [c4_read]).1.map PRead.qual
        = [List.replicate 20 (some (30 : ℚ))] := by
  refine ⟨by decide, by decide, by decide⟩

/-- C4 amended: normalizing the Scenario B read drops the first 3 bases and
advances the start offset to 103, leaves the quality list unchanged, and
records exactly one InsertionEvent attributed to the read — at reference
coordinate `111 = 103 + 8`, where 8 is the running offset including the
3 bases consumed by the leading soft clip. -/
theorem C4_amended :
    get_cigar [c4_read] =
      ([{ start := 103, name := "r", seq := List.replicate 17 Base.A,
          cig := some [(0, 5), (1, 2), (0, 10)], mapq := 50,
          qual := List.replicate 20 (some 30) }],
       [((111 : Int), 2, "r")]) := by
  decide

/-! ## C6: Coordinate Realigner -/

/-- The effective-coordinate accumulation of `update_insertions` without the
dict plumbing: each event's coordinate is shifted by the lengths of the
events already processed. -/
def pureUpd (temp : Nat) : List ((Int × Nat) × List String) →
    List ((Int × Nat) × List String)
  | [] => []
  | e :: t => ((e.1.1 + (temp : Int), e.1.2), e.2) :: pureUpd (temp + e.1.2) t

theorem dictInsert_append (k : Int × Nat) (v : List String) :
    ∀ acc : InsDict, k ∉ acc.map Prod.fst → dictInsert k v acc = acc ++ [(k, v)]
  | [], _ => rfl
  | (k', v') :: t, h => by
    have hk : k' ≠ k := by
      intro he
      exact h (by simp [he])
    have ht : k ∉ t.map Prod.fst := by
      intro hm
      exact h (by simp [hm])
    simp [dictInsert, hk, dictInsert_append k v t ht]

theorem pureUpd_lb (t : List ((Int × Nat) × List String)) :
    ∀ (temp : Nat) (lb : Int), (∀ e ∈ t, lb ≤ e.1.1) →
      ∀ f ∈ pureUpd temp t, lb + (temp : Int) ≤ f.1.1 := by
  induction t with
  | nil => intro temp lb _ f hf; simp [pureUpd] at hf
  | cons e t ih =>
    intro temp lb hlb f hf
    simp only [pureUpd, List.mem_cons] at hf
    rcases hf with rfl | hf
    · have := hlb e (by simp)
      simpa using by omega
    · have h2 := ih (temp + e.1.2) lb (fun x hx => hlb x (by simp [hx])) f hf
      omega

theorem update_insertions_go :
    ∀ (ins : List ((Int × Nat) × List String)) (acc : InsDict) (temp : Nat),
      (ins.map (fun e => e.1.1)).Pairwise (· ≤ ·) →
      (∀ e ∈ ins, 1 ≤ e.1.2) →
      (∀ a ∈ acc, ∀ f ∈ pureUpd temp ins, a.1.1 < f.1.1) →
      (ins.foldl (fun (p : InsDict × Nat) e =>
          (dictInsert (e.1.1 + (p.2 : Int), e.1.2) e.2 p.1, p.2 + e.1.2))
        (acc, temp)).1 = acc ++ pureUpd temp ins := by
  intro ins
  induction ins with
  | nil => intro acc temp _ _ _; simp [pureUpd]
  | cons e t ih =>
    intro acc temp hsort hlen hinv
    have hnotmem : (e.1.1 + (temp : Int), e.1.2) ∉ acc.map Prod.fst := by
      intro hm
      rcases List.mem_map.mp hm with ⟨a, ha, hak⟩
      have := hinv a ha ((e.1.1 + (temp : Int), e.1.2), e.2)
        (by simp [pureUpd])
      rw [hak] at this
      simp at this
    have hstep : dictInsert (e.1.1 + (temp : Int), e.1.2) e.2 acc =
        acc ++ [((e.1.1 + (temp : Int), e.1.2), e.2)] :=
      dictInsert_append _ _ acc hnotmem
    simp only [List.map_cons] at hsort
    obtain ⟨hhd, hsort'⟩ := List.pairwise_cons.mp hsort
    have hhead : ∀ x ∈ t, e.1.1 ≤ x.1.1 := by
      intro x hx
      exact hhd x.1.1 (List.mem_map.mpr ⟨x, hx, rfl⟩)
    have hinv' : ∀ a ∈ acc ++ [((e.1.1 + (temp : Int), e.1.2), e.2)],
        ∀ f ∈ pureUpd (temp + e.1.2) t, a.1.1 < f.1.1 := by
      intro a ha f hf
      rcases List.mem_append.mp ha with ha | ha
      · exact hinv a ha f (by simp [pureUpd, hf])
      · have hlb := pureUpd_lb t (temp + e.1.2) e.1.1 hhead f hf
        have h1 : 1 ≤ e.1.2 := hlen e (by simp)
        simp only [List.mem_singleton] at ha
        subst ha
        simp only []
        omega
    have := ih (acc ++ [((e.1.1 + (temp : Int), e.1.2), e.2)]) (temp + e.1.2)
      hsort' (fun x hx => hlen x (by simp [hx])) hinv'
    simp only [List.foldl_cons, hstep]
    rw [this]
    simp [pureUpd]

theorem update_insertions_eq (ins : InsDict)
    (hsort : (ins.map (fun e => e.1.1)).Pairwise (· ≤ ·))
    (hlen : ∀ e ∈ ins, 1 ≤ e.1.2) :
    update_insertions ins = pureUpd 0 ins := by
  have := update_insertions_go ins [] 0 hsort hlen (by intro a ha; simp at ha)
  simpa [update_insertions] using this

theorem pureUpd_get? :
    ∀ (ins : List ((Int × Nat) × List String)) (temp : Nat) (k : Nat)
      (e : (Int × Nat) × List String), ins.get? k = some e →
      (pureUpd temp ins).get? k =
        some ((e.1.1 + (temp : Int) +
               ((ins.take k).map (fun f => (f.1.2 : Int))).sum, e.1.2), e.2) := by
  intro ins
  induction ins with
  | nil => intro temp k e he; simp at he
  | cons x t ih =>
    intro temp k e he
    cases k with
    | zero =>
      simp only [List.get?_cons_zero, Option.some.injEq] at he
      subst he
      simp [pureUpd]
    | succ m =>
      simp only [List.get?_cons_succ] at he
      have hrec := ih (temp + x.1.2) m e he
      simp only [pureUpd, List.get?_cons_succ, List.take_succ_cons,
        List.map_cons, List.sum_cons]
      rw [hrec]
      simp only [Option.some.injEq, Prod.mk.injEq, and_true]
      push_cast
      ring

/-- The Start-position update as the claim states it: fold over the event
keys in order, adding each event's length when its coordinate is strictly
below the running start offset. -/
def specStartShift (s : Int) (events : List (Int × Nat)) : Int :=
  events.foldl (fun acc e => if e.1 < acc then acc + (e.2 : Int) else acc) s

theorem update_startpos_read (ins : InsDict) :
    ∀ r : PRead,
      ins.foldl (fun r' e =>
        if e.1.1 < r'.start then { r' with start := r'.start + (e.1.2 : Int) }
        else r') r
      = { r with start := specStartShift r.start (ins.map Prod.fst) } := by
  induction ins with
  | nil => intro r; simp [specStartShift]
  | cons e t ih =>
    intro r
    simp only [List.foldl_cons, specStartShift, List.map_cons]
    by_cases hc : e.1.1 < r.start
    · simp only [hc, if_pos]
      rw [ih]
      rfl
    · simp only [hc, if_neg, not_false_iff]
      rw [ih]
      rfl

def c6_read : PRead :=
  { start := 90, name := "z", seq := [Base.A], cig := none, mapq := 10,
    qual := [some 10] }

/-- C6: (i) iterating the coalesced insertion events in ascending coordinate
order with positive lengths, each event of `update_insertions` gets effective
coordinate = original coordinate + sum of the lengths of the events processed
before it; (ii) `update_startpos` increases every read's start offset by the
length of each event whose effective coordinate is strictly below the read's
current RUNNING start offset (fold over the events in dict order); (iii) the
events (50, len 2) and (80, len 3) become (50, len 2) and (82, len 3), and a
read starting at 90 ends at 95. -/
theorem C6_realigner :
    (∀ ins : InsDict,
      (ins.map (fun e => e.1.1)).Pairwise (· ≤ ·) →
      (∀ e ∈ ins, 1 ≤ e.1.2) →
      ∀ k e, ins.get? k = some e →
        (update_insertions ins).get? k =
          some ((e.1.1 + ((ins.take k).map (fun f => (f.1.2 : Int))).sum,
                 e.1.2), e.2))
    ∧ (∀ (sam : List PRead) (ins : InsDict),
        update_startpos sam ins = sam.map (fun r =>
          { r with start := specStartShift r.start (ins.map Prod.fst) }))
    ∧ update_insertions [((50, 2), ["x"]), ((80, 3), ["y"])]
        = [((50, 2), ["x"]), ((82, 3), ["y"])]
    ∧ (update_startpos [c6_read]
        (update_insertions [((50, 2), ["x"]), ((80, 3), ["y"])])).map
          PRead.start = [95] := by
  refine ⟨?_, ?_, by decide, by decide⟩
  · intro ins hsort hlen k e he
    rw [update_insertions_eq ins hsort hlen]
    have := pureUpd_get? ins 0 k e he
    simpa using this
  · intro sam ins
    exact List.map_congr_left (fun r _ => update_startpos_read ins r)

/-- C6 witness: the Scenario C events discharge the sortedness and
positive-length hypotheses. -/
theorem C6_witness :
    (update_insertions [((50, 2), ["x"]), ((80, 3), ["y"])]).get? 1 =
      some ((((82 : Int), 3), ["y"]) : (Int × Nat) × List String) := by
  have := C6_realigner.1 [((50, 2), ["x"]), ((80, 3), ["y"])]
    (by decide) (by decide) 1 ((80, 3), ["y"]) (by decide)
  simpa using this

/-! ## C8: Genotype Resolver

The claim says an `N` reference base maps to the sentinel genotype.  The code
(vcHMM.py line 843) instead appends the reference character `"N"` itself
(printing an error), which is not the `-1` sentinel. -/

/-- C8 counterexample: a coordinate with reference base `N` and non-sentinel
state 5 resolves to the error value `N`, not to the sentinel genotype. -/
theorem C8_counterexample :
    find_base_state [5] [Base.N] = [BState.base Base.N]
    ∧ BState.base Base.N ≠ BState.sentinel := by
  refine ⟨by decide, by decide⟩

/-- C8 amended: the Genotype Resolver maps a sentinel (-1) state index to the
sentinel genotype; maps a coordinate whose reference base is `N` (with a
non-sentinel state) to the literal base `N` error marker — NOT the sentinel;
and for a gap reference base looks the state index up in the A-base genotype
table. -/
theorem C8_amended (xtilde : List Int) (upd_ref : List Base) (i : Nat)
    (hi : i < upd_ref.length) :
    (xtilde.getD i (-1) = -1 →
      (find_base_state xtilde upd_ref).get? i = some BState.sentinel)
    ∧ (upd_ref.getD i Base.N = Base.N → xtilde.getD i (-1) ≠ -1 →
      (find_base_state xtilde upd_ref).get? i = some (BState.base Base.N))
    ∧ (upd_ref.getD i Base.N = Base.gap → xtilde.getD i (-1) ≠ -1 →
      (find_base_state xtilde upd_ref).get? i =
        some (BState.pair
          (vector_A_ex.getD (xtilde.getD i (-1)).toNat (Base.N, Base.N)))) := by
  have hmap : (find_base_state xtilde upd_ref).get? i =
      ((List.range upd_ref.length).get? i).map (fun j =>
        let x := xtilde.getD j (-1)
        if x = -1 then BState.sentinel
        else
          match upd_ref.getD j Base.N with
          | Base.A => BState.pair (vector_A_ex.getD x.toNat (Base.N, Base.N))
          | Base.C => BState.pair (vector_C_ex.getD x.toNat (Base.N, Base.N))
          | Base.G => BState.pair (vector_G_ex.getD x.toNat (Base.N, Base.N))
          | Base.T => BState.pair (vector_T_ex.getD x.toNat (Base.N, Base.N))
          | Base.N => BState.base Base.N
          | Base.gap => BState.pair (vector_A_ex.getD x.toNat (Base.N, Base.N))) := by
    simp [find_base_state, List.get?_map]
  rw [List.get?_range hi] at hmap
  refine ⟨?_, ?_, ?_⟩
  · intro hx
    rw [hmap]
    simp only [Option.map_some']
    simp only [List.getD, List.get?_eq_getElem?] at hx
    simp [hx]
  · intro hN hx
    rw [hmap]
    simp only [Option.map_some']
    simp only [List.getD, List.get?_eq_getElem?] at hx hN
    simp [hx, hN]
  · intro hg hx
    rw [hmap]
    simp only [Option.map_some']
    simp only [List.getD, List.get?_eq_getElem?] at hx hg
    simp [hx, hg]

/-- C8 witness: reference `[A, N, gap]` with states `[-1, 5, 0]` at
coordinate 2 (a gap base with state 0). -/
theorem C8_witness :
    (([-1, 5, 0] : List Int).getD 2 (-1) = -1 →
      (find_base_state [-1, 5, 0] [Base.A, Base.N, Base.gap]).get? 2 =
        some BState.sentinel)
    ∧ ([Base.A, Base.N, Base.gap].getD 2 Base.N = Base.N →
        ([-1, 5, 0] : List Int).getD 2 (-1) ≠ -1 →
      (find_base_state [-1, 5, 0] [Base.A, Base.N, Base.gap]).get? 2 =
        some (BState.base Base.N))
    ∧ ([Base.A, Base.N, Base.gap].getD 2 Base.N = Base.gap →
        ([-1, 5, 0] : List Int).getD 2 (-1) ≠ -1 →
      (find_base_state [-1, 5, 0] [Base.A, Base.N, Base.gap]).get? 2 =
        some (BState.pair
          (vector_A_ex.getD (([-1, 5, 0] : List Int).getD 2 (-1)).toNat
            (Base.N, Base.N)))) :=
  C8_amended [-1, 5, 0] [Base.A, Base.N, Base.gap] 2 (by decide)

/-! ## C10: the two Variant Formatters

`create_variant_calling_output` (vcHMM.py) and `create_varing_calling_output`
(variant_calling_output.py) do NOT return the same records: the former
separates fields with `"\t"`, the latter with `" \t "` (and they further
differ in the heterozygous-SNP allele choice and the insertion-run
handling). -/

/-- C10 counterexample: on a homozygous SNP (`G,G` against reference `C` at
position 1) the two formatters return differently formatted records. -/
theorem C10_counterexample :
    create_varing_calling_output [Base.A, Base.C] [Base.A, Base.C]
        [BState.pair (Base.A, Base.A), BState.pair (Base.G, Base.G)] [0, 1]
      = some ["1 \t C \t G"]
    ∧ create_variant_calling_output [Base.A, Base.C] [Base.A, Base.C]
        [BState.pair (Base.A, Base.A), BState.pair (Base.G, Base.G)] [0, 1]
      = ["1\tC\tG"]
    ∧ (some ["1 \t C \t G"] : Option (List String)) ≠ some ["1\tC\tG"] := by
  refine ⟨by decide, by decide, by decide⟩

theorem vcoGo_skip (ref updRef : List Base) (bs : List BState) (xt : List Int)
    (h : ∀ k, xt.getD k (-1) = 0 ∨ xt.getD k (-1) = 29 ∨ xt.getD k (-1) = -1) :
    ∀ (fuel i gc : Nat) (vtemp : String),
      vcoGo ref updRef bs xt fuel i gc vtemp = [] := by
  intro fuel
  induction fuel with
  | zero => intro i gc vtemp; rfl
  | succ m ih =>
    intro i gc vtemp
    have hx := h (i + gc)
    simp only [vcoGo, if_pos hx]
    exact ih (i + 1) _ vtemp

theorem vco2Go_skip (ref updRef : List Base) (bs : List BState) (xt : List Int)
    (h : ∀ k, xt.getD k (-1) = 0 ∨ xt.getD k (-1) = 29 ∨ xt.getD k (-1) = -1) :
    ∀ (fuel i gc : Nat) (vtemp : String),
      vco2Go ref updRef bs xt fuel i gc vtemp = some [] := by
  intro fuel
  induction fuel with
  | zero => intro i gc vtemp; rfl
  | succ m ih =>
    intro i gc vtemp
    have hx := h (i + gc)
    simp only [vco2Go, if_pos hx]
    exact ih (i + 1) _ vtemp

/-- C10 amended: the two formatters agree exactly on runs that call no
variants — whenever every decoded state is 0, 29 or the sentinel, both return
the empty record list.  On variant-producing inputs their outputs differ
(separators `"\t"` vs `" \t "`, heterozygous-SNP allele choice, and the
insertion-run branch, which in variant_calling_output.py raises `TypeError`
for runs of length ≥ 2). -/
theorem C10_amended (ref updRef : List Base) (bs : List BState) (xt : List Int)
    (h : ∀ k, xt.getD k (-1) = 0 ∨ xt.getD k (-1) = 29 ∨ xt.getD k (-1) = -1) :
    create_variant_calling_output ref updRef bs xt = []
    ∧ create_varing_calling_output ref updRef bs xt = some [] :=
  ⟨vcoGo_skip ref updRef bs xt h ref.length 0 0 "",
   vco2Go_skip ref updRef bs xt h ref.length 0 0 ""⟩

/-- C10 witness: a no-variant run (all states 0 or out of range). -/
theorem C10_witness :
    create_variant_calling_output [Base.A] [Base.A]
        [BState.pair (Base.A, Base.A)] [0] = []
    ∧ create_varing_calling_output [Base.A] [Base.A]
        [BState.pair (Base.A, Base.A)] [0] = some [] :=
  C10_amended [Base.A] [Base.A] [BState.pair (Base.A, Base.A)] [0]
    (by
      intro k
      cases k with
      | zero => left; rfl
      | succ n => right; right; simp [List.getD])

/-! ## C9: totality of the Viterbi backtracking pass -/

theorem fwdGo_length (T : List (List ℝ)) :
    ∀ (E : List (MCol EReal)) (prev : Option (List ℝ)),
      (fwdGo T prev E).length = E.length := by
  intro E
  induction E with
  | nil => intro prev; rfl
  | cons c rest ih => intro prev; simp [fwdGo, ih]

theorem initCol_length (T : List (List ℝ)) (e : List EReal) :
    (initCol T e).length = e.length := by
  simp [initCol]

theorem nextCol_length (T : List (List ℝ)) (p : List ℝ) (e : List EReal) :
    (nextCol T p e).length = 30 := by
  simp [nextCol]

theorem fwdGo_cols (T : List (List ℝ)) :
    ∀ (E : List (MCol EReal)) (prev : Option (List ℝ)),
      (∀ v, MCol.vec v ∈ E → v.length = 30) →
      ∀ d, MCol.vec d ∈ fwdGo T prev E → d.length = 30 := by
  intro E
  induction E with
  | nil => intro prev _ d hd; simp [fwdGo] at hd
  | cons c rest ih =>
    intro prev hE d hd
    match c with
    | MCol.sent =>
      simp only [fwdGo, fwdStep, List.mem_cons] at hd
      rcases hd with hd | hd
      · exact absurd hd (by simp)
      · exact ih _ (fun v hv => hE v (by simp [hv])) d hd
    | MCol.vec e =>
      have he : e.length = 30 := hE e (by simp)
      simp only [fwdGo, fwdStep, List.mem_cons] at hd
      rcases hd with hd | hd
      · cases prev with
        | none =>
          simp only [MCol.vec.injEq] at hd
          subst hd
          simp [initCol_length, he]
        | some p =>
          simp only [MCol.vec.injEq] at hd
          subst hd
          simp [nextCol_length]
      · exact ih _ (fun v hv => hE v (by simp [hv])) d hd

theorem maxD_mem : ∀ (t : List ℝ) (h : ℝ), maxD (h :: t) ∈ h :: t := by
  intro t
  induction t with
  | nil => intro h; simp [maxD]
  | cons a t' ih =>
    intro h
    have heq : maxD (h :: a :: t') = maxD (max h a :: t') := rfl
    rw [heq]
    have hm := ih (max h a)
    rcases List.mem_cons.mp hm with hm | hm
    · rw [hm]
      rcases max_choice h a with he | he <;> rw [he]
      · exact List.mem_cons_self _ _
      · exact List.mem_cons_of_mem _ (List.mem_cons_self _ _)
    · exact List.mem_cons_of_mem _ (List.mem_cons_of_mem _ hm)

theorem idxMax_lt (d : List ℝ) (hd : d ≠ []) : idxMax d < d.length := by
  match d, hd with
  | h :: t, _ =>
    exact List.indexOf_lt_length.mpr (maxD_mem t h)

theorem pyGet?_mem (T : List (List ℝ)) (hT : T.length = 30) (k : Int)
    (hk0 : -1 ≤ k) (hk1 : k < 30) :
    ∃ row, pyGet? T k = some row ∧ row ∈ T := by
  have hget : ∀ (n : Nat), n < T.length →
      ∃ row, T.get? n = some row ∧ row ∈ T := by
    intro n hn
    exact ⟨T.get ⟨n, hn⟩, List.get?_eq_get hn, T.get_mem _ _⟩
  have hunfold : pyGet? T k =
      if ((if k < 0 then (T.length : Int) + k else k) < 0) then none
      else T.get? (if k < 0 then (T.length : Int) + k else k).toNat := rfl
  by_cases hneg : k < 0
  · have hk : k = -1 := by omega
    subst hk
    have heq : pyGet? T (-1) = T.get? 29 := by
      rw [hunfold, if_pos hneg, hT, if_neg (by norm_num)]
      norm_num
      rfl
    rw [heq]
    exact hget 29 (by omega)
  · have heq : pyGet? T k = T.get? k.toNat := by
      rw [hunfold, if_neg hneg, if_neg (by omega)]
    rw [heq]
    exact hget k.toNat (by omega)

/-! Step equations for `btGo`, to avoid unfolding the nested matches. -/

theorem btGo_nil (T : List (List ℝ)) (first : Bool) (prevx : Int) :
    btGo T first prevx [] = some [] := rfl

theorem btGo_sent (T : List (List ℝ)) (first : Bool) (prevx : Int)
    (rest : List (MCol ℝ)) :
    btGo T first prevx (MCol.sent :: rest) =
      (btGo T false (-1) rest).map (fun xs => (-1 : Int) :: xs) := by
  cases rest <;> rfl

theorem btGo_vec_first (T : List (List ℝ)) (prevx : Int) (d : List ℝ)
    (rest : List (MCol ℝ)) :
    btGo T true prevx (MCol.vec d :: rest) =
      (btGo T false (idxMax d : Int) rest).map
        (fun xs => (idxMax d : Int) :: xs) := by
  cases rest <;> rfl

theorem btGo_vec_last (T : List (List ℝ)) (prevx : Int) (d : List ℝ) :
    btGo T false prevx [MCol.vec d] = none := rfl

theorem btGo_vec_sent (T : List (List ℝ)) (prevx : Int) (d : List ℝ)
    (t : List (MCol ℝ)) :
    btGo T false prevx (MCol.vec d :: MCol.sent :: t) =
      (btGo T false (idxMax d : Int) (MCol.sent :: t)).map
        (fun xs => (idxMax d : Int) :: xs) := rfl

theorem btGo_vec_vec (T : List (List ℝ)) (prevx : Int) (d d2 : List ℝ)
    (t : List (MCol ℝ)) :
    btGo T false prevx (MCol.vec d :: MCol.vec d2 :: t) =
      match pyGet? T prevx with
      | none => none
      | some trans_row =>
        (btGo T false
          (idxMax ((List.range trans_row.length).map
            (fun j => d.getD j 0 * trans_row.getD j 0)) : Int)
          (MCol.vec d2 :: t)).map
          (fun xs =>
            (idxMax ((List.range trans_row.length).map
              (fun j => d.getD j 0 * trans_row.getD j 0)) : Int) :: xs) := rfl

theorem btGo_vec_vec_some (T : List (List ℝ)) (prevx : Int) (d d2 : List ℝ)
    (t : List (MCol ℝ)) (trans_row : List ℝ)
    (hrow : pyGet? T prevx = some trans_row) :
    btGo T false prevx (MCol.vec d :: MCol.vec d2 :: t) =
      (btGo T false
        (idxMax ((List.range trans_row.length).map
          (fun j => d.getD j 0 * trans_row.getD j 0)) : Int)
        (MCol.vec d2 :: t)).map
        (fun xs =>
          (idxMax ((List.range trans_row.length).map
            (fun j => d.getD j 0 * trans_row.getD j 0)) : Int) :: xs) := by
  rw [btGo_vec_vec, hrow]

theorem btGo_last_vec_none (T : List (List ℝ)) :
    ∀ (l : List (MCol ℝ)) (first : Bool) (prevx : Int) (d : List ℝ),
      l.getLast? = some (MCol.vec d) → (first = false ∨ 2 ≤ l.length) →
      btGo T first prevx l = none := by
  intro l
  induction l with
  | nil => intro first prevx d hlast _; simp at hlast
  | cons c rest ih =>
    intro first prevx d hlast hside
    match rest with
    | [] =>
      simp only [List.getLast?_singleton, Option.some.injEq] at hlast
      subst hlast
      have hf : first = false := by
        rcases hside with h | h
        · exact h
        · simp at h
      subst hf
      rfl
    | c2 :: t =>
      have hlast' : (c2 :: t).getLast? = some (MCol.vec d) := by
        rwa [List.getLast?_cons_cons] at hlast
      have hrec : btGo T false (-1) (c2 :: t) = none :=
        ih false (-1) d hlast' (Or.inl rfl)
      match c with
      | MCol.sent =>
        rw [btGo_sent, hrec]
        rfl
      | MCol.vec dd =>
        by_cases hf : first = true
        · subst hf
          rw [btGo_vec_first, ih false _ d hlast' (Or.inl rfl)]
          rfl
        · have hf' : first = false := by simpa using hf
          subst hf'
          match c2 with
          | MCol.sent =>
            rw [btGo_vec_sent, ih false _ d hlast' (Or.inl rfl)]
            rfl
          | MCol.vec d2 =>
            rw [btGo_vec_vec]
            cases hpg : pyGet? T prevx with
            | none => rfl
            | some trans_row =>
              simp only []
              rw [ih false _ d hlast' (Or.inl rfl)]
              rfl

theorem btGo_isSome (T : List (List ℝ)) (hT : T.length = 30)
    (hTr : ∀ r ∈ T, r.length = 30) :
    ∀ (l : List (MCol ℝ)) (first : Bool) (prevx : Int),
      (∀ d, MCol.vec d ∈ l → d.length = 30) →
      (-1 ≤ prevx ∧ prevx < 30) →
      (l.getLast? = some MCol.sent ∨ l = [] ∨ (first = true ∧ l.length = 1)) →
      ∃ xs, btGo T first prevx l = some xs := by
  intro l
  induction l with
  | nil => intro first prevx _ _ _; exact ⟨[], rfl⟩
  | cons c rest ih =>
    intro first prevx hcols hprevx hside
    match rest with
    | [] =>
      match c with
      | MCol.sent => exact ⟨[-1], rfl⟩
      | MCol.vec d =>
        have hf : first = true := by
          rcases hside with h | h | h
          · simp [List.getLast?_singleton] at h
          · simp at h
          · exact h.1
        subst hf
        exact ⟨[(idxMax d : Int)], rfl⟩
    | c2 :: t =>
      have hlast : (c2 :: t).getLast? = some MCol.sent := by
        rcases hside with h | h | h
        · rwa [List.getLast?_cons_cons] at h
        · simp at h
        · simp at h
      have hcols' : ∀ d, MCol.vec d ∈ c2 :: t → d.length = 30 :=
        fun d hd => hcols d (by simp [hd])
      match c with
      | MCol.sent =>
        obtain ⟨xs, hxs⟩ := ih false (-1) hcols' (by omega) (Or.inl hlast)
        exact ⟨-1 :: xs, by rw [btGo_sent, hxs]; rfl⟩
      | MCol.vec d =>
        have hd30 : d.length = 30 := hcols d (by simp)
        have hdx : (idxMax d : Int) < 30 := by
          have := idxMax_lt d (by intro h; rw [h] at hd30; simp at hd30)
          omega
        by_cases hf : first = true
        · subst hf
          obtain ⟨xs, hxs⟩ := ih false (idxMax d : Int) hcols'
            ⟨by omega, hdx⟩ (Or.inl hlast)
          exact ⟨(idxMax d : Int) :: xs, by rw [btGo_vec_first, hxs]; rfl⟩
        · have hf' : first = false := by simpa using hf
          subst hf'
          match c2, hlast, hcols' with
          | MCol.sent, hlast2, hcols2 =>
            obtain ⟨xs, hxs⟩ := ih false (idxMax d : Int) hcols2
              ⟨by omega, hdx⟩ (Or.inl hlast2)
            exact ⟨(idxMax d : Int) :: xs, by rw [btGo_vec_sent, hxs]; rfl⟩
          | MCol.vec d2, hlast2, hcols2 =>
            obtain ⟨trans_row, hrow, hrowmem⟩ :=
              pyGet?_mem T hT prevx hprevx.1 hprevx.2
            have hrl : trans_row.length = 30 := hTr _ hrowmem
            have htl : ((List.range trans_row.length).map
                (fun j => d.getD j 0 * trans_row.getD j 0)).length = 30 := by
              simp [hrl]
            have hin : (idxMax ((List.range trans_row.length).map
                (fun j => d.getD j 0 * trans_row.getD j 0)) : Int) < 30 := by
              have := idxMax_lt ((List.range trans_row.length).map
                (fun j => d.getD j 0 * trans_row.getD j 0)) (by
                intro h
                rw [h] at htl
                simp at htl)
              omega
            obtain ⟨xs, hxs⟩ := ih false _ hcols2
              ⟨by omega, hin⟩ (Or.inl hlast2)
            refine ⟨(idxMax ((List.range trans_row.length).map
              (fun j => d.getD j 0 * trans_row.getD j 0)) : Int) :: xs, ?_⟩
            rw [btGo_vec_vec_some T prevx d d2 t trans_row hrow, hxs]
            rfl

/-- C9: the backtracking pass of `viterbi` evaluates `delta[i+1]` at the last
reversed index; (i) for every emission matrix of at least two columns whose
first column is a vector (not the no-data sentinel) the whole decoder fails
with an out-of-range access (`none`), for ANY transition matrix; (ii) when
the first column is the sentinel (and matrix/columns have their 30-sizes) the
decoder is total, so the error branch is unreachable. -/
theorem C9_backtrack_totality :
    (∀ (E : List (MCol EReal)) (T : List (List ℝ)) (v : List EReal),
      E.head? = some (MCol.vec v) → 2 ≤ E.length → viterbi E T = none)
    ∧ (∀ (E : List (MCol EReal)) (T : List (List ℝ)),
      E.head? = some MCol.sent → T.length = 30 → (∀ r ∈ T, r.length = 30) →
      (∀ v, MCol.vec v ∈ E → v.length = 30) →
      ∃ xs, viterbi E T = some xs) := by
  constructor
  · intro E T v hhead hlen
    cases E with
    | nil => simp at hhead
    | cons c rest =>
      have hc : c = MCol.vec v := by simpa using hhead
      subst hc
      unfold viterbi backtrack
      have hfwd : forward T (MCol.vec v :: rest) =
          MCol.vec (initCol T v) :: fwdGo T (some (initCol T v)) rest := rfl
      rw [hfwd]
      have hlast : ((MCol.vec (initCol T v) ::
          fwdGo T (some (initCol T v)) rest).reverse).getLast?
          = some (MCol.vec (initCol T v)) := by
        rw [List.getLast?_reverse]
        rfl
      rw [btGo_last_vec_none T _ true 0 _ hlast (Or.inr ?side)]
      · rfl
      case side =>
        have hr : rest ≠ [] := by
          intro h
          subst h
          simp at hlen
        have : 1 ≤ rest.length := List.length_pos.mpr hr
        simp only [List.length_reverse, List.length_cons, fwdGo_length]
        omega
  · intro E T hhead hT hTr hcols
    cases E with
    | nil => simp at hhead
    | cons c rest =>
      have hc : c = MCol.sent := by simpa using hhead
      subst hc
      unfold viterbi backtrack
      have hfwd : forward T (MCol.sent :: rest) =
          MCol.sent :: fwdGo T none rest := rfl
      rw [hfwd]
      have hlast : ((MCol.sent :: fwdGo T none rest).reverse).getLast?
          = some MCol.sent := by
        rw [List.getLast?_reverse]
        rfl
      obtain ⟨xs, hxs⟩ := btGo_isSome T hT hTr
        ((MCol.sent :: fwdGo T none rest).reverse) true 0
        (by
          intro d hd
          rw [List.mem_reverse] at hd
          rcases List.mem_cons.mp hd with hd | hd
          · exact absurd hd (by simp)
          · exact fwdGo_cols T rest none
              (fun u hu => hcols u (by simp [hu])) d hd)
        (by norm_num)
        (Or.inl hlast)
      exact ⟨xs.reverse, by rw [hxs]; rfl⟩

/-- A 30-entry all-zero emission column (`log`-probability 0 for every
state). -/
noncomputable def zCol : List EReal := List.replicate 30 (0 : EReal)

/-- A uniform 30x30 transition matrix. -/
noncomputable def uT : List (List ℝ) :=
  List.replicate 30 (List.replicate 30 (1/30 : ℝ))

/-- C9 witness: a two-column matrix starting with a vector crashes; a matrix
starting with the sentinel decodes. -/
theorem C9_witness :
    viterbi [MCol.vec zCol, MCol.vec zCol] uT = none
    ∧ ∃ xs, viterbi [MCol.sent, MCol.vec zCol] uT = some xs := by
  constructor
  · exact C9_backtrack_totality.1 [MCol.vec zCol, MCol.vec zCol] uT zCol rfl
      (by simp)
  · exact C9_backtrack_totality.2 [MCol.sent, MCol.vec zCol] uT rfl
      (by simp [uT])
      (by
        intro r hr
        rw [List.eq_of_mem_replicate hr]
        simp)
      (by
        intro v hv
        simp only [List.mem_cons, List.not_mem_nil, or_false] at hv
        rcases hv with hv | hv
        · exact absurd hv (by simp)
        · rw [show v = zCol from by simpa using hv]
          simp [zCol])

/-! ## C5: segment independence of the Viterbi decoder -/

/-- The forward-pass carry (the `prev` column) after consuming a prefix. -/
noncomputable def fwdAcc (T : List (List ℝ)) (prev : Option (List ℝ))
    (xs : List (MCol EReal)) : Option (List ℝ) :=
  xs.foldl (fun p c => (fwdStep T p c).1) prev

theorem fwdGo_append (T : List (List ℝ)) :
    ∀ (xs ys : List (MCol EReal)) (prev : Option (List ℝ)),
      fwdGo T prev (xs ++ ys) =
        fwdGo T prev xs ++ fwdGo T (fwdAcc T prev xs) ys := by
  intro xs
  induction xs with
  | nil => intro ys prev; rfl
  | cons c rest ih =>
    intro ys prev
    have hstep : fwdGo T prev (c :: rest ++ ys) =
        (fwdStep T prev c).2 :: fwdGo T (fwdStep T prev c).1 (rest ++ ys) := rfl
    rw [hstep, ih]
    rfl

theorem fwdGo_sent_cons (T : List (List ℝ)) (prev : Option (List ℝ))
    (ys : List (MCol EReal)) :
    fwdGo T prev (MCol.sent :: ys) = MCol.sent :: fwdGo T none ys := rfl

/-- The segmented-forward decomposition: the delta columns of a
sentinel-delimited block depend only on that block. -/
theorem forward_decomp (T : List (List ℝ)) (A S R : List (MCol EReal)) :
    forward T (A ++ MCol.sent :: (S ++ MCol.sent :: R)) =
      fwdGo T none A ++ MCol.sent ::
        (fwdGo T none S ++ MCol.sent :: fwdGo T none R) := by
  unfold forward
  rw [fwdGo_append, fwdGo_sent_cons, fwdGo_append, fwdGo_sent_cons]

/-- Backtracking over a block that is followed by a sentinel column: like
`btGo`, but the end of the list stands for the sentinel lookahead
(`delta[i+1] == -1`), so the last element of the block takes the argmax
branch instead of crashing. -/
noncomputable def btSeg (T : List (List ℝ)) :
    Bool → Int → List (MCol ℝ) → Option (List Int)
  | _, _, [] => some []
  | first, prevx, c :: rest =>
    match c with
    | MCol.sent => (btSeg T false (-1) rest).map (fun xs => (-1 : Int) :: xs)
    | MCol.vec d =>
      if first then
        let x : Int := (idxMax d : Int)
        (btSeg T false x rest).map (fun xs => x :: xs)
      else
        match rest with
        | [] =>
          let x : Int := (idxMax d : Int)
          some [x]
        | c' :: _ =>
          match c' with
          | MCol.sent =>
            let x : Int := (idxMax d : Int)
            (btSeg T false x rest).map (fun xs => x :: xs)
          | MCol.vec _ =>
            match pyGet? T prevx with
            | none => none
            | some trans_row =>
              let tl := (List.range trans_row.length).map
                (fun j => d.getD j 0 * trans_row.getD j 0)
              let x : Int := (idxMax tl : Int)
              (btSeg T false x rest).map (fun xs => x :: xs)

theorem btSeg_sent (T : List (List ℝ)) (first : Bool) (prevx : Int)
    (rest : List (MCol ℝ)) :
    btSeg T first prevx (MCol.sent :: rest) =
      (btSeg T false (-1) rest).map (fun xs => (-1 : Int) :: xs) := by
  cases rest <;> rfl

theorem btSeg_vec_first (T : List (List ℝ)) (prevx : Int) (d : List ℝ)
    (rest : List (MCol ℝ)) :
    btSeg T true prevx (MCol.vec d :: rest) =
      (btSeg T false (idxMax d : Int) rest).map
        (fun xs => (idxMax d : Int) :: xs) := by
  cases rest <;> rfl

theorem btSeg_vec_last (T : List (List ℝ)) (prevx : Int) (d : List ℝ) :
    btSeg T false prevx [MCol.vec d] = some [(idxMax d : Int)] := rfl

theorem btSeg_vec_sent (T : List (List ℝ)) (prevx : Int) (d : List ℝ)
    (t : List (MCol ℝ)) :
    btSeg T false prevx (MCol.vec d :: MCol.sent :: t) =
      (btSeg T false (idxMax d : Int) (MCol.sent :: t)).map
        (fun xs => (idxMax d : Int) :: xs) := rfl

theorem btSeg_vec_vec (T : List (List ℝ)) (prevx : Int) (d d2 : List ℝ)
    (t : List (MCol ℝ)) :
    btSeg T false prevx (MCol.vec d :: MCol.vec d2 :: t) =
      match pyGet? T prevx with
      | none => none
      | some trans_row =>
        (btSeg T false
          (idxMax ((List.range trans_row.length).map
            (fun j => d.getD j 0 * trans_row.getD j 0)) : Int)
          (MCol.vec d2 :: t)).map
          (fun xs =>
            (idxMax ((List.range trans_row.length).map
              (fun j => d.getD j 0 * trans_row.getD j 0)) : Int) :: xs) := rfl

/-- Splitting the backtracking walk at a sentinel: the outputs on the block
before the sentinel are computed by `btSeg` and do not look past the
sentinel. -/
theorem btGo_split (T : List (List ℝ)) :
    ∀ (xs ys : List (MCol ℝ)) (first : Bool) (prevx : Int),
      btGo T first prevx (xs ++ MCol.sent :: ys) =
        match btSeg T first prevx xs with
        | none => none
        | some outs =>
          (btGo T false (-1) ys).map (fun t => outs ++ (-1 : Int) :: t) := by
  intro xs
  induction xs with
  | nil =>
    intro ys first prevx
    show btGo T first prevx (MCol.sent :: ys) = _
    rw [btGo_sent]
    cases btGo T false (-1) ys <;> rfl
  | cons c rest ih =>
    intro ys first prevx
    match c with
    | MCol.sent =>
      rw [List.cons_append, btGo_sent, btSeg_sent, ih]
      cases hseg : btSeg T false (-1) rest with
      | none => rfl
      | some outs =>
        simp only [Option.map_map]
        cases btGo T false (-1) ys <;> rfl
    | MCol.vec d =>
      by_cases hf : first = true
      · subst hf
        rw [List.cons_append, btGo_vec_first, btSeg_vec_first, ih]
        cases hseg : btSeg T false (idxMax d : Int) rest with
        | none => rfl
        | some outs =>
          simp only [Option.map_map]
          cases btGo T false (-1) ys <;> rfl
      · have hf' : first = false := by simpa using hf
        subst hf'
        match rest with
        | [] =>
          simp only [List.cons_append, List.nil_append, btGo_vec_sent,
            btGo_sent, btSeg]
          cases btGo T false (-1) ys <;> rfl
        | MCol.sent :: t =>
          rw [List.cons_append, List.cons_append, btGo_vec_sent,
            btSeg_vec_sent, ← List.cons_append, ih]
          cases hseg : btSeg T false (idxMax d : Int) (MCol.sent :: t) with
          | none => rfl
          | some outs =>
            simp only [Option.map_map]
            cases btGo T false (-1) ys <;> rfl
        | MCol.vec d2 :: t =>
          rw [List.cons_append, List.cons_append, btGo_vec_vec,
            btSeg_vec_vec]
          cases hpg : pyGet? T prevx with
          | none => rfl
          | some trans_row =>
            simp only []
            rw [← List.cons_append, ih]
            cases hseg : btSeg T false _ (MCol.vec d2 :: t) with
            | none => rfl
            | some outs =>
              simp only [Option.map_map]
              cases btGo T false (-1) ys <;> rfl

theorem btSeg_isSome (T : List (List ℝ)) (hT : T.length = 30)
    (hTr : ∀ r ∈ T, r.length = 30) :
    ∀ (l : List (MCol ℝ)) (first : Bool) (prevx : Int),
      (∀ d, MCol.vec d ∈ l → d.length = 30) →
      (-1 ≤ prevx ∧ prevx < 30) →
      ∃ xs, btSeg T first prevx l = some xs := by
  intro l
  induction l with
  | nil => intro first prevx _ _; exact ⟨[], rfl⟩
  | cons c rest ih =>
    intro first prevx hcols hprevx
    have hcols' : ∀ d, MCol.vec d ∈ rest → d.length = 30 :=
      fun d hd => hcols d (by simp [hd])
    match c with
    | MCol.sent =>
      obtain ⟨xs, hxs⟩ := ih false (-1) hcols' (by omega)
      exact ⟨-1 :: xs, by rw [btSeg_sent, hxs]; rfl⟩
    | MCol.vec d =>
      have hd30 : d.length = 30 := hcols d (by simp)
      have hdx : (idxMax d : Int) < 30 := by
        have := idxMax_lt d (by intro h; rw [h] at hd30; simp at hd30)
        omega
      by_cases hf : first = true
      · subst hf
        obtain ⟨xs, hxs⟩ := ih false (idxMax d : Int) hcols' ⟨by omega, hdx⟩
        exact ⟨(idxMax d : Int) :: xs, by rw [btSeg_vec_first, hxs]; rfl⟩
      · have hf' : first = false := by simpa using hf
        subst hf'
        match rest, hcols', ih with
        | [], _, _ => exact ⟨[(idxMax d : Int)], rfl⟩
        | MCol.sent :: t, hcols2, ih2 =>
          obtain ⟨xs, hxs⟩ := ih2 false (idxMax d : Int) hcols2 ⟨by omega, hdx⟩
          exact ⟨(idxMax d : Int) :: xs, by rw [btSeg_vec_sent, hxs]; rfl⟩
        | MCol.vec d2 :: t, hcols2, ih2 =>
          obtain ⟨trans_row, hrow, hrowmem⟩ :=
            pyGet?_mem T hT prevx hprevx.1 hprevx.2
          have hrl : trans_row.length = 30 := hTr _ hrowmem
          have htl : ((List.range trans_row.length).map
              (fun j => d.getD j 0 * trans_row.getD j 0)).length = 30 := by
            simp [hrl]
          have hin : (idxMax ((List.range trans_row.length).map
              (fun j => d.getD j 0 * trans_row.getD j 0)) : Int) < 30 := by
            have := idxMax_lt ((List.range trans_row.length).map
              (fun j => d.getD j 0 * trans_row.getD j 0)) (by
              intro h
              rw [h] at htl
              simp at htl)
            omega
          obtain ⟨xs, hxs⟩ := ih2 false _ hcols2 ⟨by omega, hin⟩
          refine ⟨(idxMax ((List.range trans_row.length).map
            (fun j => d.getD j 0 * trans_row.getD j 0)) : Int) :: xs, ?_⟩
          rw [btSeg_vec_vec, hrow]
          simp only []
          rw [hxs]
          rfl

theorem btSeg_length (T : List (List ℝ)) :
    ∀ (l : List (MCol ℝ)) (first : Bool) (prevx : Int) (outs : List Int),
      btSeg T first prevx l = some outs → outs.length = l.length := by
  intro l
  induction l with
  | nil =>
    intro first prevx outs h
    simp only [btSeg, Option.some.injEq] at h
    subst h
    rfl
  | cons c rest ih =>
    intro first prevx outs h
    match c with
    | MCol.sent =>
      rw [btSeg_sent] at h
      cases hseg : btSeg T false (-1) rest with
      | none => rw [hseg] at h; simp at h
      | some xs =>
        rw [hseg] at h
        simp only [Option.map_some', Option.some.injEq] at h
        subst h
        simp [ih false (-1) xs hseg]
    | MCol.vec d =>
      by_cases hf : first = true
      · subst hf
        rw [btSeg_vec_first] at h
        cases hseg : btSeg T false (idxMax d : Int) rest with
        | none => rw [hseg] at h; simp at h
        | some xs =>
          rw [hseg] at h
          simp only [Option.map_some', Option.some.injEq] at h
          subst h
          simp [ih false _ xs hseg]
      · have hf' : first = false := by simpa using hf
        subst hf'
        match rest, ih with
        | [], _ =>
          simp only [btSeg_vec_last, Option.some.injEq] at h
          subst h
          rfl
        | MCol.sent :: t, ih2 =>
          rw [btSeg_vec_sent] at h
          cases hseg : btSeg T false (idxMax d : Int) (MCol.sent :: t) with
          | none => rw [hseg] at h; simp at h
          | some xs =>
            rw [hseg] at h
            simp only [Option.map_some', Option.some.injEq] at h
            subst h
            simp [ih2 false _ xs hseg]
        | MCol.vec d2 :: t, ih2 =>
          rw [btSeg_vec_vec] at h
          cases hpg : pyGet? T prevx with
          | none => rw [hpg] at h; simp at h
          | some trans_row =>
            rw [hpg] at h
            simp only [] at h
            cases hseg : btSeg T false
                (idxMax ((List.range trans_row.length).map
                  (fun j => d.getD j 0 * trans_row.getD j 0)) : Int)
                (MCol.vec d2 :: t) with
            | none => rw [hseg] at h; simp at h
            | some xs =>
              rw [hseg] at h
              simp only [Option.map_some', Option.some.injEq] at h
              subst h
              simp [ih2 false _ xs hseg]

theorem btGo_length (T : List (List ℝ)) :
    ∀ (l : List (MCol ℝ)) (first : Bool) (prevx : Int) (outs : List Int),
      btGo T first prevx l = some outs → outs.length = l.length := by
  intro l
  induction l with
  | nil =>
    intro first prevx outs h
    simp only [btGo_nil, Option.some.injEq] at h
    subst h
    rfl
  | cons c rest ih =>
    intro first prevx outs h
    match c with
    | MCol.sent =>
      rw [btGo_sent] at h
      cases hseg : btGo T false (-1) rest with
      | none => rw [hseg] at h; simp at h
      | some xs =>
        rw [hseg] at h
        simp only [Option.map_some', Option.some.injEq] at h
        subst h
        simp [ih false (-1) xs hseg]
    | MCol.vec d =>
      by_cases hf : first = true
      · subst hf
        rw [btGo_vec_first] at h
        cases hseg : btGo T false (idxMax d : Int) rest with
        | none => rw [hseg] at h; simp at h
        | some xs =>
          rw [hseg] at h
          simp only [Option.map_some', Option.some.injEq] at h
          subst h
          simp [ih false _ xs hseg]
      · have hf' : first = false := by simpa using hf
        subst hf'
        match rest, ih with
        | [], _ => simp [btGo_vec_last] at h
        | MCol.sent :: t, ih2 =>
          rw [btGo_vec_sent] at h
          cases hseg : btGo T false (idxMax d : Int) (MCol.sent :: t) with
          | none => rw [hseg] at h; simp at h
          | some xs =>
            rw [hseg] at h
            simp only [Option.map_some', Option.some.injEq] at h
            subst h
            simp [ih2 false _ xs hseg]
        | MCol.vec d2 :: t, ih2 =>
          rw [btGo_vec_vec] at h
          cases hpg : pyGet? T prevx with
          | none => rw [hpg] at h; simp at h
          | some trans_row =>
            rw [hpg] at h
            simp only [] at h
            cases hseg : btGo T false
                (idxMax ((List.range trans_row.length).map
                  (fun j => d.getD j 0 * trans_row.getD j 0)) : Int)
                (MCol.vec d2 :: t) with
            | none => rw [hseg] at h; simp at h
            | some xs =>
              rw [hseg] at h
              simp only [Option.map_some', Option.some.injEq] at h
              subst h
              simp [ih2 false _ xs hseg]

/-- Decomposition of a full Viterbi run around a sentinel-delimited block
`S`: the decoded states over the block are `btSeg` of the block's delta
columns alone — the surrounding parts only contribute their own outputs. -/
theorem viterbi_seg_decomp (T : List (List ℝ)) (hT : T.length = 30)
    (hTr : ∀ r ∈ T, r.length = 30) (A S R : List (MCol EReal))
    (hA : A = [] ∨ A.head? = some MCol.sent)
    (hwf : ∀ v, MCol.vec v ∈ A ++ MCol.sent :: (S ++ MCol.sent :: R) →
      v.length = 30) :
    ∃ (outsD outsR outsA : List Int),
      btSeg T false (-1) (fwdGo T none S).reverse = some outsD ∧
      viterbi (A ++ MCol.sent :: (S ++ MCol.sent :: R)) T =
        some (outsA.reverse ++ (-1 : Int) ::
          (outsD.reverse ++ (-1 : Int) :: outsR.reverse)) ∧
      outsA.length = A.length ∧ outsD.length = S.length := by
  have hwfA : ∀ v, MCol.vec v ∈ A → v.length = 30 :=
    fun v hv => hwf v (List.mem_append_left _ hv)
  have hwfS : ∀ v, MCol.vec v ∈ S → v.length = 30 :=
    fun v hv => hwf v (by
      apply List.mem_append_right
      exact List.mem_cons_of_mem _ (List.mem_append_left _ hv))
  have hwfR : ∀ v, MCol.vec v ∈ R → v.length = 30 :=
    fun v hv => hwf v (by
      apply List.mem_append_right
      apply List.mem_cons_of_mem
      apply List.mem_append_right
      exact List.mem_cons_of_mem _ hv)
  have hcolsA : ∀ d, MCol.vec d ∈ (fwdGo T none A).reverse → d.length = 30 :=
    fun d hd => fwdGo_cols T A none hwfA d (List.mem_reverse.mp hd)
  have hcolsS : ∀ d, MCol.vec d ∈ (fwdGo T none S).reverse → d.length = 30 :=
    fun d hd => fwdGo_cols T S none hwfS d (List.mem_reverse.mp hd)
  have hcolsR : ∀ d, MCol.vec d ∈ (fwdGo T none R).reverse → d.length = 30 :=
    fun d hd => fwdGo_cols T R none hwfR d (List.mem_reverse.mp hd)
  obtain ⟨outsR, hR⟩ := btSeg_isSome T hT hTr (fwdGo T none R).reverse true 0
    hcolsR (by norm_num)
  obtain ⟨outsD, hD⟩ := btSeg_isSome T hT hTr (fwdGo T none S).reverse false
    (-1) hcolsS (by norm_num)
  obtain ⟨outsA, hAo⟩ := btGo_isSome T hT hTr (fwdGo T none A).reverse false
    (-1) hcolsA (by norm_num) (by
      rcases hA with hA | hA
      · right; left
        subst hA
        rfl
      · left
        rw [List.getLast?_reverse]
        cases A with
        | nil => simp at hA
        | cons c rest =>
          have hc : c = MCol.sent := by simpa using hA
          subst hc
          rfl)
  refine ⟨outsD, outsR, outsA, hD, ?_, ?_, ?_⟩
  · unfold viterbi backtrack
    rw [forward_decomp]
    have hrev : (fwdGo T none A ++ MCol.sent ::
        (fwdGo T none S ++ MCol.sent :: fwdGo T none R)).reverse
        = (fwdGo T none R).reverse ++ MCol.sent ::
          ((fwdGo T none S).reverse ++ MCol.sent ::
            (fwdGo T none A).reverse) := by
      simp [List.reverse_append, List.reverse_cons, List.append_assoc]
    rw [hrev, btGo_split, hR]
    simp only []
    rw [btGo_split, hD]
    simp only []
    rw [hAo]
    simp only [Option.map_some', Option.some.injEq]
    simp [List.reverse_append, List.reverse_cons, List.append_assoc]
  · have h1 := btGo_length T _ false (-1) outsA hAo
    simpa [fwdGo_length] using h1
  · have h1 := btSeg_length T _ false (-1) outsD hD
    simpa [fwdGo_length] using h1

/-- C5: for any two emission matrices that contain the same
sentinel-delimited segment `S` (with the bounding sentinel columns) but
differ arbitrarily before and after it — with the first column a sentinel so
that decoding is total, and 30-sized transition matrix and columns — the
Viterbi decoder produces identical decoded state sub-paths for the segment:
state choices outside the segment never influence its decoded states. -/
theorem C5_segment_independence (T : List (List ℝ))
    (A1 A2 S R1 R2 : List (MCol EReal))
    (hT : T.length = 30) (hTr : ∀ r ∈ T, r.length = 30)
    (hA1 : A1 = [] ∨ A1.head? = some MCol.sent)
    (hA2 : A2 = [] ∨ A2.head? = some MCol.sent)
    (_hS : ∀ c ∈ S, c ≠ MCol.sent) (_hSne : S ≠ [])
    (h1 : ∀ v, MCol.vec v ∈ A1 ++ MCol.sent :: (S ++ MCol.sent :: R1) →
      v.length = 30)
    (h2 : ∀ v, MCol.vec v ∈ A2 ++ MCol.sent :: (S ++ MCol.sent :: R2) →
      v.length = 30) :
    ∃ x1 x2,
      viterbi (A1 ++ MCol.sent :: (S ++ MCol.sent :: R1)) T = some x1 ∧
      viterbi (A2 ++ MCol.sent :: (S ++ MCol.sent :: R2)) T = some x2 ∧
      (x1.drop (A1.length + 1)).take S.length
        = (x2.drop (A2.length + 1)).take S.length := by
  obtain ⟨D1, R1o, A1o, hD1, hv1, hlA1, hlD1⟩ :=
    viterbi_seg_decomp T hT hTr A1 S R1 hA1 h1
  obtain ⟨D2, R2o, A2o, hD2, hv2, hlA2, hlD2⟩ :=
    viterbi_seg_decomp T hT hTr A2 S R2 hA2 h2
  have hDD : D1 = D2 := by
    rw [hD1] at hD2
    exact Option.some.inj hD2
  subst hDD
  have hext : ∀ (Ao Ro : List Int) (n : Nat), Ao.length = n →
      (((Ao.reverse ++ (-1 : Int) ::
        (D1.reverse ++ (-1 : Int) :: Ro.reverse)).drop (n+1)).take S.length)
        = D1.reverse := by
    intro Ao Ro n hn
    have hgroup : Ao.reverse ++ (-1 : Int) ::
        (D1.reverse ++ (-1 : Int) :: Ro.reverse)
        = (Ao.reverse ++ [(-1 : Int)]) ++
          (D1.reverse ++ (-1 : Int) :: Ro.reverse) := by
      simp [List.append_assoc]
    rw [hgroup]
    have hlen1 : (Ao.reverse ++ [(-1 : Int)]).length = n + 1 := by simp [hn]
    rw [← hlen1, List.drop_left]
    have hlen2 : D1.reverse.length = S.length := by simp [hlD1]
    rw [← hlen2, List.take_left]
  refine ⟨_, _, hv1, hv2, ?_⟩
  rw [hext A1o R1o A1.length hlA1, hext A2o R2o A2.length hlA2]

/-- C5 witness: segment `[zCol]` embedded in two different surroundings
(empty prefix/suffix vs a sentinel prefix and an extra trailing column). -/
theorem C5_witness :
    ∃ x1 x2,
      viterbi ([] ++ MCol.sent :: ([MCol.vec zCol] ++ MCol.sent :: [])) uT
        = some x1 ∧
      viterbi ([MCol.sent] ++ MCol.sent ::
        ([MCol.vec zCol] ++ MCol.sent :: [MCol.vec zCol])) uT = some x2 ∧
      (x1.drop (([] : List (MCol EReal)).length + 1)).take
          ([MCol.vec zCol] : List (MCol EReal)).length
        = (x2.drop (([MCol.sent] : List (MCol EReal)).length + 1)).take
          ([MCol.vec zCol] : List (MCol EReal)).length :=
  C5_segment_independence uT [] [MCol.sent] [MCol.vec zCol] [] [MCol.vec zCol]
    (by simp [uT])
    (by
      intro r hr
      rw [List.eq_of_mem_replicate hr]
      simp)
    (Or.inl rfl)
    (Or.inr rfl)
    (by
      intro c hc
      rw [show c = MCol.vec zCol from by simpa using hc]
      simp)
    (by simp)
    (by
      intro v hv
      simp only [List.nil_append, List.cons_append, List.mem_cons,
        List.not_mem_nil, or_false] at hv
      rcases hv with hv | hv | hv
      · exact absurd hv (by simp)
      · rw [show v = zCol from by simpa using hv]
        simp [zCol]
      · exact absurd hv (by simp))
    (by
      intro v hv
      simp only [List.cons_append, List.nil_append, List.mem_cons,
        List.not_mem_nil, or_false] at hv
      rcases hv with hv | hv | hv | hv | hv
      · exact absurd hv (by simp)
      · exact absurd hv (by simp)
      · rw [show v = zCol from by simpa using hv]
        simp [zCol]
      · exact absurd hv (by simp)
      · rw [show v = zCol from by simpa using hv]
        simp [zCol])

/-! ## C1: the forward-column recurrence

The claim states the update as `max over source states i of
transition[i][j] * prev[i]` for destination `j` — i.e. the transition matrix
indexed with the SOURCE as row.  The code multiplies row `y` of the
transition matrix with the previous column (`transmission_matrix[y][z] *
delta[i-1][z]`) and takes the row maximum, so destination `y` reads row `y`:
the matrix is indexed with the DESTINATION as row (the transpose of the
claimed formula). -/

theorem eexp_coe (x : ℝ) : eexp ((x : ℝ) : EReal) = Real.exp x := by
  unfold eexp
  rw [if_neg (EReal.coe_ne_bot x), if_neg (EReal.coe_ne_top x)]
  rw [EReal.toReal_coe]

theorem elog_pos (x : ℝ) (hx : 0 < x) :
    elog x = ((Real.log x : ℝ) : EReal) := by
  unfold elog
  rw [if_neg (by linarith)]

theorem getD_map_range {α : Type} (n k : Nat) (hk : k < n) (f : Nat → α)
    (d : α) : ((List.range n).map f).getD k d = f k := by
  rw [List.getD, List.get?_eq_getElem?, List.getElem?_map,
    List.getElem?_range hk]
  rfl

theorem getD_replicate {α : Type} (n k : Nat) (hk : k < n) (a d : α) :
    (List.replicate n a).getD k d = a := by
  rw [List.getD, List.get?_eq_getElem?, List.getElem?_replicate, if_pos hk]
  rfl

theorem maxD_replicate : ∀ (n : Nat) (x : ℝ),
    maxD (List.replicate (n + 1) x) = x := by
  intro n
  induction n with
  | zero => intro x; simp [maxD]
  | succ m ih =>
    intro x
    have h1 : List.replicate (m + 2) x = x :: x :: List.replicate m x := rfl
    have h2 : maxD (x :: x :: List.replicate m x)
        = maxD (max x x :: List.replicate m x) := rfl
    rw [h1, h2, max_self]
    exact ih x

theorem le_maxD : ∀ (t : List ℝ) (h y : ℝ), y ∈ h :: t → y ≤ maxD (h :: t) := by
  intro t
  induction t with
  | nil =>
    intro h y hy
    simp at hy
    simp [maxD, hy]
  | cons a t' ih =>
    intro h y hy
    have heq : maxD (h :: a :: t') = maxD (max h a :: t') := rfl
    rw [heq]
    rcases List.mem_cons.mp hy with hy | hy
    · subst hy
      exact le_trans (le_max_left y a) (ih (max y a) _ (by simp))
    · rcases List.mem_cons.mp hy with hy | hy
      · subst hy
        exact le_trans (le_max_right h y) (ih (max h y) _ (by simp))
      · exact ih (max h a) y (by simp [hy])

theorem maxD_eq (t : List ℝ) (h x : ℝ) (hmem : x ∈ h :: t)
    (hub : ∀ y ∈ h :: t, y ≤ x) : maxD (h :: t) = x :=
  le_antisymm (hub _ (maxD_mem t h)) (le_maxD t h x hmem)

/-- The forward-column formula as the CLAIM words it: for destination `j`,
the maximum over source states `i` of `transition[i][j] * prev[i]` (source
as row index), then natural log, plus the emission entry, normalized by
log-sum-exp and exponentiated.  This is the claim-side definition to compare
with the code's `nextCol`. -/
noncomputable def specForwardColumn (T : List (List ℝ)) (prev : List ℝ)
    (e : List EReal) : List ℝ :=
  let m := (List.range 30).map (fun j =>
    maxD ((List.range 30).map (fun i => (T.getD i []).getD j 0 * prev.getD i 0)))
  let emmi := (List.range 30).map (fun j => elog (m.getD j 0) + e.getD j ⊥)
  let den := elog ((emmi.map eexp).sum)
  emmi.map (fun v => eexp (v - den))

/-- The amended formula: identical except that the transition matrix is
indexed with the DESTINATION as row — `transition[j][i] * prev[i]`. -/
noncomputable def amendedForwardColumn (T : List (List ℝ)) (prev : List ℝ)
    (e : List EReal) : List ℝ :=
  let m := (List.range 30).map (fun j =>
    maxD ((List.range 30).map (fun i => (T.getD j []).getD i 0 * prev.getD i 0)))
  let emmi := (List.range 30).map (fun j => elog (m.getD j 0) + e.getD j ⊥)
  let den := elog ((emmi.map eexp).sum)
  emmi.map (fun v => eexp (v - den))

theorem nextCol_eq_amended (T : List (List ℝ)) (prev : List ℝ)
    (e : List EReal) : nextCol T prev e = amendedForwardColumn T prev e := by
  unfold nextCol amendedForwardColumn
  have hm : (List.range 30).map (fun y =>
      maxD (((List.range 30).map (fun y => (List.range 30).map (fun z =>
        (T.getD y []).getD z 0 *
          ((List.replicate 30 prev).getD y []).getD z 0))).getD y []))
      = (List.range 30).map (fun j =>
        maxD ((List.range 30).map
          (fun i => (T.getD j []).getD i 0 * prev.getD i 0))) := by
    apply List.map_congr_left
    intro y hy
    rw [List.mem_range] at hy
    rw [getD_map_range 30 y hy]
    congr 1
    apply List.map_congr_left
    intro z hz
    rw [getD_replicate 30 y hy]
  exact congrArg (fun m : List ℝ =>
    ((List.range 30).map (fun y => elog (m.getD y 0) + e.getD y ⊥)).map
      (fun v => eexp (v - elog ((((List.range 30).map
        (fun y => elog (m.getD y 0) + e.getD y ⊥)).map eexp).sum)))) hm

/-- In-segment consecutive-column characterization of the forward pass:
if column `i` is a vector and the delta at `i - 1` is a vector `p` (so column
`i - 1` was not a sentinel), the delta at `i` is `nextCol` of `p`. -/
theorem forward_consec (T : List (List ℝ)) :
    ∀ (E : List (MCol EReal)) (prev : Option (List ℝ)) (i : Nat)
      (e : List EReal) (p : List ℝ),
      E.get? (i + 1) = some (MCol.vec e) →
      (fwdGo T prev E).get? i = some (MCol.vec p) →
      (fwdGo T prev E).get? (i + 1) = some (MCol.vec (nextCol T p e)) := by
  intro E
  induction E with
  | nil => intro prev i e p he _; simp at he
  | cons c rest ih =>
    intro prev i e p he hp
    cases i with
    | zero =>
      have hstep : fwdGo T prev (c :: rest)
          = (fwdStep T prev c).2 :: fwdGo T (fwdStep T prev c).1 rest := rfl
      rw [hstep] at hp ⊢
      simp only [List.get?_cons_zero, Option.some.injEq] at hp
      simp only [List.get?_cons_succ] at he ⊢
      match c, hp with
      | MCol.vec e0, hp =>
        cases rest with
        | nil => simp at he
        | cons c1 rest1 =>
          simp only [List.get?_cons_zero, Option.some.injEq] at he
          subst he
          cases prev with
          | none =>
            have hp2 : initCol T e0 = p := by
              simpa [fwdStep] using hp
            show (fwdGo T (some (initCol T e0))
              (MCol.vec e :: rest1)).get? 0 = _
            rw [hp2]
            rfl
          | some q =>
            have hp2 : nextCol T q e0 = p := by
              simpa [fwdStep] using hp
            show (fwdGo T (some (nextCol T q e0))
              (MCol.vec e :: rest1)).get? 0 = _
            rw [hp2]
            rfl
    | succ i' =>
      have hstep : fwdGo T prev (c :: rest)
          = (fwdStep T prev c).2 :: fwdGo T (fwdStep T prev c).1 rest := rfl
      rw [hstep] at hp ⊢
      simp only [List.get?_cons_succ] at he hp ⊢
      exact ih _ i' e p he hp

/-- C1 amended: for every non-initial column inside a segment (column `i` a
vector, delta at `i-1` a vector `p`), the decoder computes the forward vector
as: for every destination `j`, the maximum over source states `i` of
`transition[j][i] * p[i]` (destination as ROW index — the transpose of the
claimed indexing), the natural log of each maximum plus the column's
log-emission (undefined = -inf), normalized by log-sum-exp and exponentiated
back. -/
theorem C1_amended (T : List (List ℝ)) (E : List (MCol EReal)) (i : Nat)
    (e : List EReal) (p : List ℝ) (hi : 1 ≤ i)
    (hei : E.get? i = some (MCol.vec e))
    (hprev : (forward T E).get? (i - 1) = some (MCol.vec p)) :
    (forward T E).get? i = some (MCol.vec (amendedForwardColumn T p e)) := by
  obtain ⟨i', rfl⟩ : ∃ i', i = i' + 1 := ⟨i - 1, by omega⟩
  have h := forward_consec T E none i' e p (by simpa using hei)
    (by simpa using hprev)
  rw [← nextCol_eq_amended]
  simpa using h

/-! Concrete run refuting the claimed source-row indexing: a transition
matrix whose row 1 is `2/30` everywhere and all other rows `1/30`
everywhere, on all-zero emission columns.  The code produces the normalized
ROW-maxima `[1/31, 2/31, 1/31, ...]`; the claimed formula produces the
normalized COLUMN-maxima, the uniform `1/30` vector. -/

noncomputable def row130 : List ℝ := List.replicate 30 (1/30)

noncomputable def row230 : List ℝ := List.replicate 30 (2/30)

noncomputable def myT : List (List ℝ) :=
  row130 :: row230 :: List.replicate 28 row130

noncomputable def u30col : List ℝ := List.replicate 30 (1/30)

noncomputable def myE : List (MCol EReal) :=
  [MCol.sent, MCol.vec zCol, MCol.vec zCol]

theorem myT_getD (j : Nat) (hj : j < 30) :
    myT.getD j [] = if j = 1 then row230 else row130 := by
  match j with
  | 0 => rfl
  | 1 => rfl
  | (k+2) =>
    have h1 : ¬(k + 2 = 1) := by omega
    rw [if_neg h1]
    show (List.replicate 28 row130).getD k [] = row130
    exact getD_replicate 28 k (by omega) _ _

theorem eexp_ezero : eexp (0 : EReal) = 1 := by
  rw [← EReal.coe_zero, eexp_coe, Real.exp_zero]

theorem maxD_eq' (l : List ℝ) (x : ℝ) (hne : l ≠ []) (hmem : x ∈ l)
    (hub : ∀ y ∈ l, y ≤ x) : maxD l = x := by
  match l, hne with
  | h :: t, _ => exact maxD_eq t h x hmem hub

theorem initCol_myT : initCol myT zCol = u30col := by
  have htl : (List.range zCol.length).map
      (fun ii => (myT.getD 0 []).getD ii 0 * eexp (zCol.getD ii ⊥))
      = List.replicate 30 ((1:ℝ)/30) := by
    have hlen : zCol.length = 30 := by simp [zCol]
    rw [hlen]
    have hpt : ∀ ii ∈ List.range 30,
        (myT.getD 0 []).getD ii 0 * eexp (zCol.getD ii ⊥) = (1:ℝ)/30 := by
      intro ii hii
      rw [List.mem_range] at hii
      have h0 : myT.getD 0 [] = row130 := rfl
      rw [h0]
      show (List.replicate 30 ((1:ℝ)/30)).getD ii 0 *
        eexp ((List.replicate 30 (0 : EReal)).getD ii ⊥) = 1/30
      rw [getD_replicate 30 ii hii, getD_replicate 30 ii hii, eexp_ezero]
      ring
    rw [List.map_congr_left hpt, List.map_const', List.length_range]
  show ((List.range zCol.length).map
      (fun ii => (myT.getD 0 []).getD ii 0 * eexp (zCol.getD ii ⊥))).map
    (fun v => v / ((List.range zCol.length).map
      (fun ii => (myT.getD 0 []).getD ii 0 * eexp (zCol.getD ii ⊥))).sum)
    = u30col
  rw [htl]
  have hsum : (List.replicate 30 ((1:ℝ)/30)).sum = 1 := by
    rw [List.sum_replicate]
    norm_num
  rw [hsum, List.map_replicate]
  norm_num [u30col]

theorem forward_myE_get1 :
    (forward myT myE).get? 1 = some (MCol.vec u30col) := by
  have h : (forward myT myE).get? 1
      = some (MCol.vec (initCol myT zCol)) := rfl
  rw [h, initCol_myT]

theorem forward_myE_get2 :
    (forward myT myE).get? 2
      = some (MCol.vec (nextCol myT u30col zCol)) := by
  have h : (forward myT myE).get? 2
      = some (MCol.vec (nextCol myT (initCol myT zCol) zCol)) := rfl
  rw [h, initCol_myT]

theorem myT_mcode :
    (List.range 30).map (fun y =>
      maxD (((List.range 30).map (fun y => (List.range 30).map (fun z =>
        (myT.getD y []).getD z 0 *
          ((List.replicate 30 u30col).getD y []).getD z 0))).getD y []))
    = (List.range 30).map (fun y => if y = 1 then (2:ℝ)/900 else 1/900) := by
  apply List.map_congr_left
  intro y hy
  rw [List.mem_range] at hy
  rw [getD_map_range 30 y hy]
  simp only [getD_replicate 30 y hy]
  by_cases hy1 : y = 1
  · subst hy1
    rw [if_pos rfl]
    have hrow : myT.getD 1 [] = row230 := by
      rw [myT_getD 1 (by omega)]
      rfl
    simp only [hrow]
    have hpt : ∀ z ∈ List.range 30,
        row230.getD z 0 * u30col.getD z 0 = (2:ℝ)/900 := by
      intro z hz
      rw [List.mem_range] at hz
      show (List.replicate 30 ((2:ℝ)/30)).getD z 0 *
        (List.replicate 30 ((1:ℝ)/30)).getD z 0 = 2/900
      rw [getD_replicate 30 z hz, getD_replicate 30 z hz]
      norm_num
    rw [List.map_congr_left hpt, List.map_const', List.length_range]
    have := maxD_replicate 29 ((2:ℝ)/900)
    norm_num at this ⊢
    exact this
  · rw [if_neg hy1]
    have hrow : myT.getD y [] = row130 := by
      rw [myT_getD y hy, if_neg hy1]
    simp only [hrow]
    have hpt : ∀ z ∈ List.range 30,
        row130.getD z 0 * u30col.getD z 0 = (1:ℝ)/900 := by
      intro z hz
      rw [List.mem_range] at hz
      show (List.replicate 30 ((1:ℝ)/30)).getD z 0 *
        (List.replicate 30 ((1:ℝ)/30)).getD z 0 = 1/900
      rw [getD_replicate 30 z hz]
      norm_num
    rw [List.map_congr_left hpt, List.map_const', List.length_range]
    have := maxD_replicate 29 ((1:ℝ)/900)
    norm_num at this ⊢
    exact this

theorem nextCol_myT :
    nextCol myT u30col zCol = (List.range 30).map
      (fun y => (if y = 1 then (2:ℝ)/900 else 1/900) / ((31:ℝ)/900)) := by
  have hstep : nextCol myT u30col zCol =
      ((List.range 30).map (fun y =>
        elog (((List.range 30).map
          (fun y => if y = 1 then (2:ℝ)/900 else 1/900)).getD y 0) +
          zCol.getD y ⊥)).map
        (fun v => eexp (v - elog ((((List.range 30).map (fun y =>
          elog (((List.range 30).map
            (fun y => if y = 1 then (2:ℝ)/900 else 1/900)).getD y 0) +
            zCol.getD y ⊥)).map eexp).sum))) :=
    congrArg (fun m : List ℝ =>
      ((List.range 30).map (fun y => elog (m.getD y 0) + zCol.getD y ⊥)).map
        (fun v => eexp (v - elog ((((List.range 30).map
          (fun y => elog (m.getD y 0) + zCol.getD y ⊥)).map eexp).sum))))
      myT_mcode
  rw [hstep]
  have hemmi : (List.range 30).map (fun y =>
      elog (((List.range 30).map
        (fun y => if y = 1 then (2:ℝ)/900 else 1/900)).getD y 0) +
        zCol.getD y ⊥)
      = (List.range 30).map (fun y =>
        ((Real.log (if y = 1 then (2:ℝ)/900 else 1/900) : ℝ) : EReal)) := by
    apply List.map_congr_left
    intro y hy
    rw [List.mem_range] at hy
    rw [getD_map_range 30 y hy]
    have hz : zCol.getD y ⊥ = (0 : EReal) := by
      show (List.replicate 30 (0 : EReal)).getD y ⊥ = 0
      exact getD_replicate 30 y hy _ _
    rw [hz]
    have hpos : (0:ℝ) < (if y = 1 then (2:ℝ)/900 else 1/900) := by
      split <;> norm_num
    rw [elog_pos _ hpos, ← EReal.coe_zero, ← EReal.coe_add, add_zero]
  rw [hemmi]
  have hsum : (((List.range 30).map (fun y =>
      ((Real.log (if y = 1 then (2:ℝ)/900 else 1/900) : ℝ) : EReal))).map
        eexp).sum = (31:ℝ)/900 := by
    rw [List.map_map]
    have hpt : ∀ y ∈ List.range 30,
        (eexp ∘ fun y =>
          ((Real.log (if y = 1 then (2:ℝ)/900 else 1/900) : ℝ) : EReal)) y
          = (if y = 1 then (2:ℝ)/900 else 1/900) := by
      intro y hy
      show eexp ((Real.log (if y = 1 then (2:ℝ)/900 else 1/900) : ℝ) : EReal)
        = _
      rw [eexp_coe]
      apply Real.exp_log
      split <;> norm_num
    rw [List.map_congr_left hpt]
    have hr : List.range 30 =
      [0,1,2,3,4,5,6,7,8,9,10,11,12,13,14,
       15,16,17,18,19,20,21,22,23,24,25,26,27,28,29] := rfl
    rw [hr]
    norm_num
  rw [hsum, List.map_map]
  apply List.map_congr_left
  intro y hy
  show eexp (((Real.log (if y = 1 then (2:ℝ)/900 else 1/900) : ℝ) : EReal)
    - elog ((31:ℝ)/900)) = _
  rw [elog_pos _ (by norm_num), ← EReal.coe_sub, eexp_coe, Real.exp_sub,
    Real.exp_log (by split <;> norm_num : (0:ℝ) <
      (if y = 1 then (2:ℝ)/900 else 1/900)),
    Real.exp_log (by norm_num : (0:ℝ) < (31:ℝ)/900)]

theorem nextCol_myT_getD1 :
    (nextCol myT u30col zCol).getD 1 0 = 2/31 := by
  rw [nextCol_myT, getD_map_range 30 1 (by omega)]
  norm_num

theorem spec_myT :
    specForwardColumn myT u30col zCol = (List.range 30).map
      (fun _ => ((2:ℝ)/900) / ((60:ℝ)/900)) := by
  have hm : (List.range 30).map (fun j =>
      maxD ((List.range 30).map
        (fun i => (myT.getD i []).getD j 0 * u30col.getD i 0)))
      = (List.range 30).map (fun _ => (2:ℝ)/900) := by
    apply List.map_congr_left
    intro j hj
    rw [List.mem_range] at hj
    apply maxD_eq'
    · simp
    · apply List.mem_map.mpr
      refine ⟨1, by simp, ?_⟩
      have hrow : myT.getD 1 [] = row230 := by
        rw [myT_getD 1 (by omega)]
        rfl
      rw [hrow]
      show (List.replicate 30 ((2:ℝ)/30)).getD j 0 *
        (List.replicate 30 ((1:ℝ)/30)).getD 1 0 = 2/900
      rw [getD_replicate 30 j hj, getD_replicate 30 1 (by omega)]
      norm_num
    · intro x hx
      rcases List.mem_map.mp hx with ⟨i, hi, rfl⟩
      rw [List.mem_range] at hi
      by_cases hi1 : i = 1
      · subst hi1
        have hrow : myT.getD 1 [] = row230 := by
          rw [myT_getD 1 (by omega)]
          rfl
        rw [hrow]
        show (List.replicate 30 ((2:ℝ)/30)).getD j 0 *
          (List.replicate 30 ((1:ℝ)/30)).getD 1 0 ≤ 2/900
        rw [getD_replicate 30 j hj, getD_replicate 30 1 (by omega)]
        norm_num
      · have hrow : myT.getD i [] = row130 := by
          rw [myT_getD i hi, if_neg hi1]
        rw [hrow]
        show (List.replicate 30 ((1:ℝ)/30)).getD j 0 *
          (List.replicate 30 ((1:ℝ)/30)).getD i 0 ≤ 2/900
        rw [getD_replicate 30 j hj, getD_replicate 30 i hi]
        norm_num
  have hstep : specForwardColumn myT u30col zCol =
      ((List.range 30).map (fun y =>
        elog (((List.range 30).map
          (fun _ => (2:ℝ)/900)).getD y 0) + zCol.getD y ⊥)).map
        (fun v => eexp (v - elog ((((List.range 30).map (fun y =>
          elog (((List.range 30).map
            (fun _ => (2:ℝ)/900)).getD y 0) + zCol.getD y ⊥)).map
              eexp).sum))) :=
    congrArg (fun m : List ℝ =>
      ((List.range 30).map (fun y => elog (m.getD y 0) + zCol.getD y ⊥)).map
        (fun v => eexp (v - elog ((((List.range 30).map
          (fun y => elog (m.getD y 0) + zCol.getD y ⊥)).map eexp).sum)))) hm
  rw [hstep]
  have hemmi : (List.range 30).map (fun y =>
      elog (((List.range 30).map (fun _ => (2:ℝ)/900)).getD y 0) +
        zCol.getD y ⊥)
      = (List.range 30).map (fun _ =>
        ((Real.log ((2:ℝ)/900) : ℝ) : EReal)) := by
    apply List.map_congr_left
    intro y hy
    rw [List.mem_range] at hy
    rw [getD_map_range 30 y hy]
    have hz : zCol.getD y ⊥ = (0 : EReal) := by
      show (List.replicate 30 (0 : EReal)).getD y ⊥ = 0
      exact getD_replicate 30 y hy _ _
    rw [hz, elog_pos _ (by norm_num), ← EReal.coe_zero, ← EReal.coe_add,
      add_zero]
  rw [hemmi]
  have hsum : (((List.range 30).map (fun _ =>
      ((Real.log ((2:ℝ)/900) : ℝ) : EReal))).map eexp).sum = (60:ℝ)/900 := by
    rw [List.map_map]
    have hpt : ∀ y ∈ List.range 30,
        (eexp ∘ fun _ => ((Real.log ((2:ℝ)/900) : ℝ) : EReal)) y
          = (2:ℝ)/900 := by
      intro y hy
      show eexp ((Real.log ((2:ℝ)/900) : ℝ) : EReal) = _
      rw [eexp_coe]
      exact Real.exp_log (by norm_num)
    rw [List.map_congr_left hpt, List.map_const', List.length_range,
      List.sum_replicate]
    norm_num
  rw [hsum, List.map_map]
  apply List.map_congr_left
  intro y hy
  show eexp (((Real.log ((2:ℝ)/900) : ℝ) : EReal) - elog ((60:ℝ)/900)) = _
  rw [elog_pos _ (by norm_num), ← EReal.coe_sub, eexp_coe, Real.exp_sub,
    Real.exp_log (by norm_num : (0:ℝ) < (2:ℝ)/900),
    Real.exp_log (by norm_num : (0:ℝ) < (60:ℝ)/900)]

theorem spec_myT_getD1 :
    (specForwardColumn myT u30col zCol).getD 1 0 = 1/30 := by
  rw [spec_myT, getD_map_range 30 1 (by omega)]
  norm_num

/-- C1 counterexample: on the concrete run `myE` with transition matrix
`myT`, the previous column's normalized forward vector is the uniform
`u30col`, and the program's next forward column differs from the vector
prescribed by the claimed formula (`max` over source states `i` of
`transition[i][j] * prev[i]`): the program yields `2/31` at state 1 where
the claimed formula yields `1/30`. -/
theorem C1_counterexample :
    (forward myT myE).get? 1 = some (MCol.vec u30col)
    ∧ (forward myT myE).get? 2
        ≠ some (MCol.vec (specForwardColumn myT u30col zCol)) := by
  refine ⟨forward_myE_get1, ?_⟩
  intro hcontra
  rw [forward_myE_get2] at hcontra
  have heq : nextCol myT u30col zCol = specForwardColumn myT u30col zCol := by
    simpa using hcontra
  have h1 : (nextCol myT u30col zCol).getD 1 0
      = (specForwardColumn myT u30col zCol).getD 1 0 := by
    rw [heq]
  rw [nextCol_myT_getD1, spec_myT_getD1] at h1
  norm_num at h1

/-- C1 amended witness: the run `myE`/`myT` at column 2, with the previous
delta column `u30col`. -/
theorem C1_witness :
    (1 : Nat) ≤ 2 ∧ myE.get? 2 = some (MCol.vec zCol)
    ∧ (forward myT myE).get? (2 - 1) = some (MCol.vec u30col)
    ∧ (forward myT myE).get? 2
        = some (MCol.vec (amendedForwardColumn myT u30col zCol)) :=
  ⟨by norm_num, rfl, forward_myE_get1,
    C1_amended myT myE 2 zCol u30col (by norm_num) rfl forward_myE_get1⟩

/-! ## C7: the Scenario A pipeline run

Reference `"ACGT"`; six reads, each a single base `C` with quality 30 at
position 1 and mapping quality 40; everywhere else the coverage is 0 < 5.
The transition matrix is the simulated one of `main` (vcHMM.py lines
1051-1054, `hetrate = 0.01`).  Note position 1 of `"ACGT"` (0-based, as
`get_pileup` indexes) carries the reference base `C`: the six `C`
observations SUPPORT the reference. -/

def c7read (nm : String) : PRead :=
  { start := 1, name := nm, seq := [Base.C], cig := some [(0, 1)],
    mapq := 40, qual := [some 30] }

def c7sam : List PRead :=
  [c7read "r1", c7read "r2", c7read "r3", c7read "r4", c7read "r5",
   c7read "r6"]

def c7ref : List Base := [Base.A, Base.C, Base.G, Base.T]

/-- `pre_transition_matrix_simulated` (vcHMM.py lines 1051-1054). -/
def c7pre : List (List ℚ) :=
  [[988/1000, 8/1000, 2/1000, 2/1000],
   [53/100, 45/100, 1/100, 1/100],
   [70/100, 15/100, 15/100, 0],
   [70/100, 15/100, 0, 15/100]]

noncomputable def c7T : List (List ℝ) :=
  (create_transition_matrix c7pre (1/100)).map
    (fun r => r.map (fun q => ((q : ℚ) : ℝ)))

def c7pileup : List Base :=
  [Base.C, Base.C, Base.C, Base.C, Base.C, Base.C]

def c7pq : List QVal :=
  [some 30, some 30, some 30, some 30, some 30, some 30]

def c7mq : List ℚ := [40, 40, 40, 40, 40, 40]

def c7qual : List ℚ := [10, 10, 10, 10, 10, 10]

theorem c7get_pileup : get_pileup c7sam 1 = (c7pileup, c7pq, c7mq) := rfl

theorem c7repair : repair_qual c7pq c7mq =
    [some 10, some 10, some 10, some 10, some 10, some 10] := by
  have hst : repair_qual c7pq c7mq =
      if c7pq.all (fun e => e = (some 30 : QVal)) then
        (List.range c7pq.length).map
          (fun y => (some (c7mq.getD y 0 / 4) : Option ℚ))
      else if (none : Option ℚ) ∈ c7pq then
        c7pq.map (fun v => match v with
          | none => (some ((c7pq.filterMap id).sum /
              ((c7pq.filter (fun e => e ≠ (none : Option ℚ))).length : ℚ))
              : Option ℚ)
          | some a => (some a : Option ℚ))
      else c7pq := rfl
  rw [hst, if_pos (by decide)]
  have hr : List.range c7pq.length = [0, 1, 2, 3, 4, 5] := rfl
  rw [hr]
  simp only [List.map_cons, List.map_nil, c7mq, List.getD_cons_zero,
    List.getD_cons_succ]
  norm_num

theorem c7repairedQual : repairedQual (c7pileup, c7pq, c7mq) = c7qual := by
  show (repair_qual c7pq c7mq).map (fun v => v.getD 0) = c7qual
  rw [c7repair]
  rfl

/-- `10 ** (-10/10)` of the quality-10 error model. -/
theorem c7rpow : (10 : ℝ) ^ (-(((10 : ℚ) : ℝ)) / 10) = 1 / 10 := by
  have h1 : (-(((10 : ℚ) : ℝ)) / 10) = ((-1 : ℤ) : ℝ) := by push_cast; norm_num
  rw [h1, Real.rpow_intCast]
  norm_num

theorem elog10_pos (x : ℝ) (hx : 0 < x) :
    elog10 x = ((Real.logb 10 x : ℝ) : EReal) := by
  unfold elog10
  rw [if_neg (by linarith)]

/-- Per-read value for the genotype `CC` over a `C` observation of
quality 10. -/
theorem c7case_CC : emissionCase (Base.C, Base.C) Base.C 10 =
    ((Real.logb 10 ((9 : ℝ)/10) : ℝ) : EReal) := by
  unfold emissionCase
  rw [if_pos (⟨rfl, rfl⟩ : (Base.C, Base.C).1 = Base.C ∧
    (Base.C, Base.C).2 = Base.C)]
  rw [c7rpow]
  rw [show (1 : ℝ) - 1 / 10 = (9 : ℝ)/10 by norm_num]
  rw [elog10_pos _ (by norm_num)]

/-- Per-read value for a genotype matching `C` on exactly one allele. -/
theorem c7case_one (pr : Base × Base)
    (h1 : ¬(pr.1 = Base.C ∧ pr.2 = Base.C))
    (h2 : ¬(Base.C ≠ pr.1 ∧ Base.C ≠ pr.2)) :
    emissionCase pr Base.C 10 =
      ((Real.logb 10 ((37 : ℝ)/80) : ℝ) : EReal) := by
  unfold emissionCase
  rw [if_neg h1, if_neg h2, c7rpow]
  rw [show (0.5 : ℝ) * (1 - 1 / 10) + 0.125 * (1 / 10) = (37 : ℝ)/80 by
    norm_num]
  rw [elog10_pos _ (by norm_num)]

/-- The two emission values of the data column. -/
noncomputable def c7a : EReal :=
  ((6 * Real.logb 10 ((9 : ℝ)/10) : ℝ) : EReal)

noncomputable def c7b : EReal :=
  ((6 * Real.logb 10 ((37 : ℝ)/80) : ℝ) : EReal)

theorem c7cell_CC : emissionCell (Base.C, Base.C) c7pileup c7qual = c7a := by
  unfold emissionCell
  have hr : List.range c7pileup.length = [0, 1, 2, 3, 4, 5] := rfl
  rw [hr]
  simp only [List.map_cons, List.map_nil, c7pileup, c7qual,
    List.getD_cons_zero, List.getD_cons_succ]
  rw [c7case_CC]
  rw [show ((0 : EReal)) = (((0 : ℝ)) : EReal) from EReal.coe_zero.symm]
  simp only [List.foldl_cons, List.foldl_nil, ← EReal.coe_add]
  rw [show c7a = ((6 * Real.logb 10 ((9 : ℝ)/10) : ℝ) : EReal) from rfl]
  rw [EReal.coe_eq_coe_iff]
  ring

theorem c7cell_one (pr : Base × Base)
    (h1 : ¬(pr.1 = Base.C ∧ pr.2 = Base.C))
    (h2 : ¬(Base.C ≠ pr.1 ∧ Base.C ≠ pr.2)) :
    emissionCell pr c7pileup c7qual = c7b := by
  unfold emissionCell
  have hr : List.range c7pileup.length = [0, 1, 2, 3, 4, 5] := rfl
  rw [hr]
  simp only [List.map_cons, List.map_nil, c7pileup, c7qual,
    List.getD_cons_zero, List.getD_cons_succ]
  rw [c7case_one pr h1 h2]
  rw [show ((0 : EReal)) = (((0 : ℝ)) : EReal) from EReal.coe_zero.symm]
  simp only [List.foldl_cons, List.foldl_nil, ← EReal.coe_add]
  rw [show c7b = ((6 * Real.logb 10 ((37 : ℝ)/80) : ℝ) : EReal) from rfl]
  rw [EReal.coe_eq_coe_iff]
  ring

/-- The homozygous-gap state 14: the 80%-gap shortcut does not fire
(`6 * 0.8 > 0` gaps) and no pileup base matches, so the entry is "NaN". -/
theorem c7entry14 :
    emissionEntry (Base.gap, Base.gap) (Base.gap, Base.gap) c7pileup c7qual 0
      = (⊥ : EReal) := by
  unfold emissionEntry
  rw [if_neg]
  · rfl
  · intro hcon
    have h2 := hcon.2
    norm_num [c7pileup] at h2

/-- The single data column of Scenario A: reference base `C`, state 0
(genotype `CC`) carries the reference-supporting value, states 4-7 (the
genotypes with one `C` allele) the mismatch value, everything else "NaN". -/
noncomputable def c7col : List EReal :=
  [c7a, ⊥, ⊥, ⊥, c7b, c7b, c7b, c7b, ⊥, ⊥, ⊥, ⊥, ⊥, ⊥, ⊥] ++
    List.replicate 15 (⊥ : EReal)

theorem c7colBase : emissionColBase vector_C c7pileup c7qual = c7col := by
  show [emissionCell (Base.C, Base.C) c7pileup c7qual, ⊥, ⊥, ⊥,
        emissionCell (Base.A, Base.C) c7pileup c7qual,
        emissionCell (Base.C, Base.G) c7pileup c7qual,
        emissionCell (Base.C, Base.T) c7pileup c7qual,
        emissionCell (Base.C, Base.gap) c7pileup c7qual,
        ⊥, ⊥, ⊥, ⊥, ⊥, ⊥,
        emissionEntry (Base.gap, Base.gap) (Base.gap, Base.gap) c7pileup
          c7qual 0] ++
      List.replicate 15 (⊥ : EReal) = c7col
  rw [c7cell_CC, c7entry14,
    c7cell_one (Base.A, Base.C) (by decide) (by decide),
    c7cell_one (Base.C, Base.G) (by decide) (by decide),
    c7cell_one (Base.C, Base.T) (by decide) (by decide),
    c7cell_one (Base.C, Base.gap) (by decide) (by decide)]
  rfl

theorem c7column1 : emissionColumn c7sam c7ref 1 = MCol.vec c7col := by
  unfold emissionColumn
  rw [c7get_pileup]
  rw [if_neg (by decide), if_neg (by decide)]
  rw [c7repairedQual]
  show MCol.vec (emissionColBase vector_C c7pileup c7qual) = MCol.vec c7col
  rw [c7colBase]

theorem c7column0 : emissionColumn c7sam c7ref 0 = MCol.sent := rfl

theorem c7column2 : emissionColumn c7sam c7ref 2 = MCol.sent := rfl

theorem c7column3 : emissionColumn c7sam c7ref 3 = MCol.sent := rfl

theorem c7emission : build_emissionmatrix c7sam c7ref =
    [MCol.sent, MCol.vec c7col, MCol.sent, MCol.sent] := by
  unfold build_emissionmatrix
  rw [show List.range c7ref.length = [0, 1, 2, 3] from rfl]
  simp only [List.map_cons, List.map_nil]
  rw [c7column0, c7column1, c7column2, c7column3]

/-- The forward pass of Scenario A: only the data column produces a delta
vector, initialized from row 0 of the transition matrix. -/
noncomputable def c7d : List ℝ := initCol c7T c7col

theorem c7forward :
    forward c7T [MCol.sent, MCol.vec c7col, MCol.sent, MCol.sent] =
      [MCol.sent, MCol.vec c7d, MCol.sent, MCol.sent] := rfl

theorem c7backtrack :
    backtrack c7T [MCol.sent, MCol.vec c7d, MCol.sent, MCol.sent] =
      some [-1, (idxMax c7d : Int), -1, -1] := by
  unfold backtrack
  rw [show ([MCol.sent, MCol.vec c7d, MCol.sent, MCol.sent] :
      List (MCol ℝ)).reverse
      = [MCol.sent, MCol.sent, MCol.vec c7d, MCol.sent] from rfl]
  rw [btGo_sent, btGo_sent, btGo_vec_sent, btGo_sent, btGo_nil]
  rfl

/-- Row 0 of the simulated transition matrix, in exact rationals. -/
def c7row : List ℚ :=
  create_row_transition_matrix [988/1000, 8/1000, 2/1000, 2/1000] (1/100)

theorem c7T0_eq : c7T.getD 0 [] = c7row.map (fun q => ((q : ℚ) : ℝ)) := rfl

theorem c7T0_getD (j : Nat) :
    (c7T.getD 0 []).getD j 0 = ((c7row.getD j 0 : ℚ) : ℝ) := by
  rw [c7T0_eq]
  rw [show (0 : ℝ) = ((0 : ℚ) : ℝ) by norm_num]
  exact List.getD_map c7row 0 _

/-- The self-transition damping factor `t` of the simulated row. -/
def c7t : ℚ := 2/1000 * (1/100) / 32

theorem c7row_explicit : c7row =
    [988/1000 * (1 - 1/100) * (1 - c7t),
     8/1000 * (1 - 1/100) / 3 * (1 - c7t),
     8/1000 * (1 - 1/100) / 3 * (1 - c7t),
     8/1000 * (1 - 1/100) / 3 * (1 - c7t),
     (988/1000 + 8/1000 / 3) * (1/100) / 4 * (1 - c7t),
     (988/1000 + 8/1000 / 3) * (1/100) / 4 * (1 - c7t),
     (988/1000 + 8/1000 / 3) * (1/100) / 4 * (1 - c7t),
     (988/1000 + 2/1000) * (1/100) / 4 * (1 - c7t),
     8/1000 * (1/100) / 6 * (1 - c7t),
     8/1000 * (1/100) / 6 * (1 - c7t),
     (8/1000 / 3 + 2/1000) * (1/100) / 4 * (1 - c7t),
     8/1000 * (1/100) / 6 * (1 - c7t),
     (8/1000 / 3 + 2/1000) * (1/100) / 4 * (1 - c7t),
     (8/1000 / 3 + 2/1000) * (1/100) / 4 * (1 - c7t),
     2/1000 * (1 - 1/100) * (1 - c7t),
     2/1000 * (1 - 1/100) / 4 * (1 - c7t),
     2/1000 * (1 - 1/100) / 4 * (1 - c7t),
     2/1000 * (1 - 1/100) / 4 * (1 - c7t),
     2/1000 * (1 - 1/100) / 4 * (1 - c7t),
     2/1000 * (1/100) / 8 * (1 - c7t),
     2/1000 * (1/100) / 8 * (1 - c7t),
     2/1000 * (1/100) / 8 * (1 - c7t),
     2/1000 * (1/100) / 16 * (1 - c7t),
     2/1000 * (1/100) / 8 * (1 - c7t),
     2/1000 * (1/100) / 8 * (1 - c7t),
     2/1000 * (1/100) / 16 * (1 - c7t),
     2/1000 * (1/100) / 8 * (1 - c7t),
     2/1000 * (1/100) / 16 * (1 - c7t),
     2/1000 * (1/100) / 16 * (1 - c7t),
     c7t] := rfl

theorem c7row_nonneg (j : Nat) : 0 ≤ c7row.getD j 0 := by
  rcases lt_or_ge j 30 with hj | hj
  · have hlen : j < c7row.length := by
      rw [show c7row.length = 30 from rfl]
      exact hj
    rw [List.getD_eq_getElem c7row 0 hlen]
    have hall : ∀ x ∈ c7row, (0 : ℚ) ≤ x := by
      rw [c7row_explicit]
      intro x hx
      fin_cases hx <;> norm_num [c7t]
    exact hall _ (List.getElem_mem hlen)
  · rw [List.getD_eq_default c7row 0 (by rw [show c7row.length = 30 from rfl]; omega)]

/-- One entry of the un-normalized initial delta vector. -/
noncomputable def c7g (ii : Nat) : ℝ :=
  (c7T.getD 0 []).getD ii 0 * eexp (c7col.getD ii ⊥)

noncomputable def c7s : ℝ := ((List.range 30).map c7g).sum

theorem c7d_eq : c7d = ((List.range 30).map c7g).map (fun v => v / c7s) :=
  rfl

theorem eexp_bot : eexp (⊥ : EReal) = 0 := by
  unfold eexp
  rw [if_pos rfl]

theorem eexp_nonneg (x : EReal) : 0 ≤ eexp x := by
  unfold eexp
  split_ifs
  · exact le_refl 0
  · exact le_refl 0
  · exact (Real.exp_pos _).le

theorem c7g_bot (ii : Nat) (h : c7col.getD ii ⊥ = (⊥ : EReal)) :
    c7g ii = 0 := by
  unfold c7g
  rw [h, eexp_bot, mul_zero]

noncomputable def c7alpha : ℝ := Real.exp (6 * Real.logb 10 ((9 : ℝ)/10))

noncomputable def c7beta : ℝ := Real.exp (6 * Real.logb 10 ((37 : ℝ)/80))

theorem c7g_0 : c7g 0 = ((c7row.getD 0 0 : ℚ) : ℝ) * c7alpha := by
  unfold c7g
  rw [show c7col.getD 0 ⊥ =
    ((6 * Real.logb 10 ((9 : ℝ)/10) : ℝ) : EReal) from rfl]
  rw [eexp_coe, c7T0_getD]
  rfl

theorem c7g_snp (j : Nat) (h : c7col.getD j ⊥ =
    ((6 * Real.logb 10 ((37 : ℝ)/80) : ℝ) : EReal)) :
    c7g j = ((c7row.getD j 0 : ℚ) : ℝ) * c7beta := by
  unfold c7g
  rw [h, eexp_coe, c7T0_getD]
  rfl

theorem c7col_cases (ii : Nat) (h : ii < 30) :
    c7col.getD ii ⊥ = (⊥ : EReal) ∨
      ii = 0 ∨ ii = 4 ∨ ii = 5 ∨ ii = 6 ∨ ii = 7 := by
  interval_cases ii <;> first | exact Or.inl rfl | exact Or.inr (by decide)

theorem c7g_nonneg (ii : Nat) : 0 ≤ c7g ii := by
  unfold c7g
  apply mul_nonneg _ (eexp_nonneg _)
  rw [c7T0_getD]
  exact_mod_cast c7row_nonneg ii

theorem c7row_pos0 : (0 : ℚ) < c7row.getD 0 0 := by
  rw [show c7row.getD 0 0 =
    988/1000 * ((1 : ℚ) - 1/100) * (1 - c7t) from rfl]
  norm_num [c7t]

theorem c7g0_pos : 0 < c7g 0 := by
  rw [c7g_0]
  apply mul_pos _ (Real.exp_pos _)
  exact_mod_cast c7row_pos0

theorem c7beta_lt : c7beta < c7alpha := by
  unfold c7beta c7alpha
  have h : Real.logb 10 ((37 : ℝ)/80) < Real.logb 10 ((9 : ℝ)/10) :=
    Real.logb_lt_logb (by norm_num) (by norm_num) (by norm_num)
  exact Real.exp_lt_exp.mpr (by linarith)

theorem c7row_le_snp (j : Nat) (h : j = 4 ∨ j = 5 ∨ j = 6 ∨ j = 7) :
    c7row.getD j 0 ≤ c7row.getD 0 0 := by
  rcases h with rfl | rfl | rfl | rfl
  · rw [show c7row.getD 4 0 =
      (988/1000 + (8 : ℚ)/1000 / 3) * (1/100) / 4 * (1 - c7t) from rfl,
      show c7row.getD 0 0 =
      988/1000 * ((1 : ℚ) - 1/100) * (1 - c7t) from rfl]
    norm_num [c7t]
  · rw [show c7row.getD 5 0 =
      (988/1000 + (8 : ℚ)/1000 / 3) * (1/100) / 4 * (1 - c7t) from rfl,
      show c7row.getD 0 0 =
      988/1000 * ((1 : ℚ) - 1/100) * (1 - c7t) from rfl]
    norm_num [c7t]
  · rw [show c7row.getD 6 0 =
      (988/1000 + (8 : ℚ)/1000 / 3) * (1/100) / 4 * (1 - c7t) from rfl,
      show c7row.getD 0 0 =
      988/1000 * ((1 : ℚ) - 1/100) * (1 - c7t) from rfl]
    norm_num [c7t]
  · rw [show c7row.getD 7 0 =
      (988/1000 + (2 : ℚ)/1000) * (1/100) / 4 * (1 - c7t) from rfl,
      show c7row.getD 0 0 =
      988/1000 * ((1 : ℚ) - 1/100) * (1 - c7t) from rfl]
    norm_num [c7t]

theorem c7g_le (ii : Nat) (h : ii < 30) : c7g ii ≤ c7g 0 := by
  rcases c7col_cases ii h with hbot | h0 | h4 | h5 | h6 | h7
  · rw [c7g_bot ii hbot]
    exact c7g0_pos.le
  · rw [h0]
  · subst h4
    rw [c7g_snp 4 rfl, c7g_0]
    apply mul_le_mul _ c7beta_lt.le (Real.exp_pos _).le _
    · exact_mod_cast c7row_le_snp 4 (by norm_num)
    · exact_mod_cast c7row_pos0.le
  · subst h5
    rw [c7g_snp 5 rfl, c7g_0]
    apply mul_le_mul _ c7beta_lt.le (Real.exp_pos _).le _
    · exact_mod_cast c7row_le_snp 5 (by norm_num)
    · exact_mod_cast c7row_pos0.le
  · subst h6
    rw [c7g_snp 6 rfl, c7g_0]
    apply mul_le_mul _ c7beta_lt.le (Real.exp_pos _).le _
    · exact_mod_cast c7row_le_snp 6 (by norm_num)
    · exact_mod_cast c7row_pos0.le
  · subst h7
    rw [c7g_snp 7 rfl, c7g_0]
    apply mul_le_mul _ c7beta_lt.le (Real.exp_pos _).le _
    · exact_mod_cast c7row_le_snp 7 (by norm_num)
    · exact_mod_cast c7row_pos0.le

theorem c7s_pos : 0 < c7s := by
  unfold c7s
  rw [show (List.range 30).map c7g = c7g 0 ::
      ([1, 2, 3, 4, 5, 6, 7, 8, 9, 10, 11, 12, 13, 14, 15, 16, 17, 18, 19,
        20, 21, 22, 23, 24, 25, 26, 27, 28, 29].map c7g) from rfl]
  rw [List.sum_cons]
  have h2 : 0 ≤ ([1, 2, 3, 4, 5, 6, 7, 8, 9, 10, 11, 12, 13, 14, 15, 16, 17,
      18, 19, 20, 21, 22, 23, 24, 25, 26, 27, 28, 29].map c7g).sum := by
    apply List.sum_nonneg
    intro x hx
    rcases List.mem_map.mp hx with ⟨k, _, rfl⟩
    exact c7g_nonneg k
  linarith [c7g0_pos]

theorem c7maxD :
    maxD (((List.range 30).map c7g).map (fun v => v / c7s))
      = c7g 0 / c7s := by
  apply maxD_eq'
  · intro hcontra
    have hlen := congrArg List.length hcontra
    simp at hlen
  · exact List.mem_map.mpr ⟨c7g 0,
      List.mem_map.mpr ⟨0, List.mem_range.mpr (by norm_num), rfl⟩, rfl⟩
  · intro y hy
    rcases List.mem_map.mp hy with ⟨v, hv, rfl⟩
    rcases List.mem_map.mp hv with ⟨k, hk, rfl⟩
    exact (div_le_div_iff_of_pos_right c7s_pos).mpr (c7g_le k (List.mem_range.mp hk))

/-- The decoded state of the data column is 0: the reference-supporting
genotype `CC` strictly dominates every other state (larger transition
probability and larger emission), so the normalized maximum sits at the
head of the delta vector. -/
theorem c7idx : idxMax c7d = 0 := by
  unfold idxMax
  rw [c7d_eq, c7maxD]
  rw [show ((List.range 30).map c7g).map (fun v => v / c7s) =
      (c7g 0 / c7s) ::
        ([1, 2, 3, 4, 5, 6, 7, 8, 9, 10, 11, 12, 13, 14, 15, 16, 17, 18, 19,
          20, 21, 22, 23, 24, 25, 26, 27, 28, 29].map c7g).map
          (fun v => v / c7s) from rfl]
  exact List.indexOf_cons_self _ _

theorem c7viterbi :
    viterbi (build_emissionmatrix c7sam c7ref) c7T = some [-1, 0, -1, -1] := by
  unfold viterbi
  rw [c7emission, c7forward, c7backtrack, c7idx]
  rfl

theorem c7states : find_base_state [-1, 0, -1, -1] c7ref =
    [BState.sentinel, BState.pair (Base.C, Base.C), BState.sentinel,
     BState.sentinel] := rfl

theorem c7vcf : create_variant_calling_output c7ref c7ref
    [BState.sentinel, BState.pair (Base.C, Base.C), BState.sentinel,
     BState.sentinel] [-1, 0, -1, -1] = [] := rfl

/-- The pipeline of `main` on the Scenario A input: emission matrix,
Viterbi decoding, genotype resolution, variant formatting.  `none` would
model a Python exception. -/
noncomputable def c7pipeline : Option (List String) :=
  (viterbi (build_emissionmatrix c7sam c7ref) c7T).map
    (fun xt => create_variant_calling_output c7ref c7ref
      (find_base_state xt c7ref) xt)

theorem c7pipeline_eval : c7pipeline = some [] := by
  unfold c7pipeline
  rw [c7viterbi]
  simp only [Option.map_some']
  rw [c7states, c7vcf]

/-- C7 counterexample: on Scenario A (reference `"ACGT"`, six reads
reporting base `C` with quality 30 at position 1, coverage below 5
everywhere else, simulated transition matrix) the pipeline outputs NO
variant records, not the claimed record `"1\tA\tC"`: position 1 of the
reference already carries `C`, so the six `C` observations are
reference-supporting and the column decodes to state 0. -/
theorem C7_counterexample :
    c7pipeline = some [] ∧ c7pipeline ≠ some ["1\tA\tC"] := by
  refine ⟨c7pipeline_eval, ?_⟩
  rw [c7pipeline_eval]
  decide

/-- C7 amended: on Scenario A the Viterbi decoder maps position 1 to state
0 — the homozygous genotype equal to the reference base `C` — and the
sentinel `-1` elsewhere, and the pipeline therefore emits an empty variant
list (the reads support the reference, so no variant is called). -/
theorem C7_amended :
    viterbi (build_emissionmatrix c7sam c7ref) c7T = some [-1, 0, -1, -1] ∧
      find_base_state [-1, 0, -1, -1] c7ref =
        [BState.sentinel, BState.pair (Base.C, Base.C), BState.sentinel,
         BState.sentinel] ∧
      c7pipeline = some [] :=
  ⟨c7viterbi, c7states, c7pipeline_eval⟩
